import Mathlib

/-!
Verification of the block-selection engine of `prosemirror-examples`
(`src/unnamed/part_003`, with the plugin-state variants in
`src/unnamed/part_002` and `src/components/BlockSelection.tsx`).

The document model is the ProseMirror node tree: a node is either a text
node (inline, occupying `len` positions) or an element node (a block in the
schemas used by the examples, occupying `2 + content size` positions).
Positions are integers into the flat token stream; `resolve` computes the
path of a position exactly as `prosemirror-model`'s `ResolvedPos.resolve`
does, and the engine's navigation primitives are translated line by line
from the source.
-/

/-- The document node tree.  `text len` stands for any inline leaf content of
size `len` (text nodes, with `hard_break`/`image` leaves as `text 1`);
`block kids` is an element node, which in the basic+list schema used by the
examples is always a block node. -/
inductive PNode where
  | text (len : Nat)
  | block (kids : List PNode)
deriving Inhabited

mutual

/-- Structural equality test for nodes. -/
def pnodeBeq : PNode → PNode → Bool
  | .text a, .text b => a == b
  | .block xs, .block ys => pnodeBeqList xs ys
  | _, _ => false

/-- Structural equality test for node lists. -/
def pnodeBeqList : List PNode → List PNode → Bool
  | [], [] => true
  | x :: xs, y :: ys => pnodeBeq x y && pnodeBeqList xs ys
  | _, _ => false

end

mutual

theorem pnodeBeq_iff : ∀ a b : PNode, pnodeBeq a b = true ↔ a = b
  | .text a, .text b => by simp [pnodeBeq]
  | .text _, .block _ => by simp [pnodeBeq]
  | .block _, .text _ => by simp [pnodeBeq]
  | .block xs, .block ys => by simp [pnodeBeq, pnodeBeqList_iff xs ys]

theorem pnodeBeqList_iff : ∀ xs ys : List PNode, pnodeBeqList xs ys = true ↔ xs = ys
  | [], [] => by simp [pnodeBeqList]
  | [], _ :: _ => by simp [pnodeBeqList]
  | _ :: _, [] => by simp [pnodeBeqList]
  | x :: xs, y :: ys => by
    simp [pnodeBeqList, pnodeBeq_iff x y, pnodeBeqList_iff xs ys]

end

instance : DecidableEq PNode := fun a b =>
  decidable_of_iff (pnodeBeq a b = true) (pnodeBeq_iff a b)

/-- `node.isBlock` of prosemirror-model, for the schemas of the examples. -/
def isBlock : PNode → Bool
  | .block _ => true
  | .text _ => false

/-- `node.isText` of prosemirror-model. -/
def isText : PNode → Bool
  | .text _ => true
  | .block _ => false

/-- The child list of a node (`node.content`); text nodes have none. -/
def kidsOf : PNode → List PNode
  | .text _ => []
  | .block ks => ks

mutual

/-- `node.nodeSize`: text nodes occupy their length, element nodes occupy
their content size plus the two boundary tokens. -/
def nodeSize : PNode → Nat
  | .text len => len
  | .block ks => 2 + totalSize ks

/-- `fragment.size`: total size of a child list. -/
def totalSize : List PNode → Nat
  | [] => 0
  | k :: ks => nodeSize k + totalSize ks

end

/-- `node.firstChild`. -/
def firstChild (n : PNode) : Option PNode := (kidsOf n).head?

/-- `node.childCount`. -/
def childCount (n : PNode) : Nat := (kidsOf n).length

/-- Sum of the sizes of the first `i` children: the offset of child `i`
inside its parent's content. -/
def sizesBefore (ks : List PNode) (i : Nat) : Nat := totalSize (ks.take i)

/-- Schema homogeneity: a node's children are either all blocks or all
inline, as every content expression of the basic+list schema
(`block+`, `inline*`, `list_item+`, `paragraph block*`) guarantees. -/
def childrenHomog (ks : List PNode) : Bool :=
  ks.all isBlock || ks.all (fun k => !isBlock k)

mutual

/-- Well-formed document: text nodes are nonempty (prosemirror forbids empty
text nodes) and every child list is homogeneous per the schema. -/
def Wf : PNode → Bool
  | .text len => decide (1 ≤ len)
  | .block ks => childrenHomog ks && WfList ks

/-- All nodes of a list are well-formed. -/
def WfList : List PNode → Bool
  | [] => true
  | k :: ks => Wf k && WfList ks

end

/-- `Fragment.findIndex` inner loop: scan children accumulating positions. -/
def findIndexAux : List PNode → Nat → Nat → Nat → Nat × Nat
  | [], i, curPos, _ => (i, curPos)
  | k :: ks, i, curPos, pos =>
    let e := curPos + nodeSize k
    if pos ≤ e then (if pos = e then (i + 1, e) else (i, curPos))
    else findIndexAux ks (i + 1) e pos

/-- `Fragment.findIndex(pos)`: the index of the child containing `pos`
together with that child's start offset; a `pos` at a child boundary yields
the index after the boundary. -/
def findIndex (ks : List PNode) (pos : Nat) : Nat × Nat :=
  if pos = 0 then (0, 0)
  else if pos = totalSize ks then (ks.length, pos)
  else findIndexAux ks 0 0 pos

/-- A resolved position, as in prosemirror-model's `ResolvedPos`: the flat
position, the resolution path (one `(node, index, absolute position before
child)` entry per depth level, root first), and the offset into the final
parent. -/
structure RPos where
  pos : Nat
  path : List (PNode × Nat × Nat)
  parentOffset : Nat
deriving DecidableEq

theorem sizeOf_lt_of_kid {child n : PNode} (h : child ∈ kidsOf n) :
    sizeOf child < sizeOf n := by
  cases n with
  | text len => simp [kidsOf] at h
  | block ks =>
    simp only [kidsOf] at h
    have := List.sizeOf_lt_of_mem h
    simp only [PNode.block.sizeOf_spec]
    omega

/-- The descent loop of `ResolvedPos.resolve`: at each node find the child
containing the remaining offset, stop when the offset sits at a child
boundary or inside a text node, else descend.  Returns the path entries and
the final parent offset.  The fuel only bounds the descent depth (each
level descends into a strictly smaller child, and a document's size always
exceeds its height), keeping the recursion structural. -/
def resolveGo : Nat → PNode → Nat → Nat → List (PNode × Nat × Nat) × Nat
  | 0, _, _, po => ([], po)
  | fuel + 1, n, start, po =>
    let io := findIndex (kidsOf n) po
    let rem := po - io.2
    if rem = 0 then ([(n, io.1, start + io.2)], po)
    else
      match (kidsOf n)[io.1]? with
      | none => ([(n, io.1, start + io.2)], po)
      | some child =>
        if isText child then ([(n, io.1, start + io.2)], po)
        else
          let rest := resolveGo fuel child (start + io.2 + 1) (rem - 1)
          ((n, io.1, start + io.2) :: rest.1, rest.2)

/-- `doc.resolve(pos)`. -/
def resolve (doc : PNode) (pos : Nat) : RPos :=
  let r := resolveGo (nodeSize doc + 1) doc 0 pos
  { pos := pos, path := r.1, parentOffset := r.2 }

/-- The path entry at a depth level (components of `ResolvedPos.path`). -/
def RPos.entry (r : RPos) (d : Nat) : PNode × Nat × Nat :=
  r.path.getD d (PNode.block [], 0, 0)

/-- `ResolvedPos.depth`. -/
def RPos.depth (r : RPos) : Nat := r.path.length - 1

/-- `ResolvedPos.node(d)`. -/
def RPos.node (r : RPos) (d : Nat) : PNode := (r.entry d).1

/-- `ResolvedPos.index(d)`. -/
def RPos.index (r : RPos) (d : Nat) : Nat := (r.entry d).2.1

/-- The third path component at a level: the absolute position before the
child being descended into at that level. -/
def RPos.third (r : RPos) (d : Nat) : Nat := (r.entry d).2.2

/-- `ResolvedPos.parent`. -/
def RPos.parent (r : RPos) : PNode := r.node r.depth

/-- `ResolvedPos.before()` at the default depth: `path[depth * 3 - 1]`.
The engine only calls it after guarding `depth > 0`. -/
def RPos.beforeD (r : RPos) : Nat := r.third (r.depth - 1)

/-- `ResolvedPos.textOffset`. -/
def RPos.textOffset (r : RPos) : Nat := r.pos - r.third r.depth

/-- `ResolvedPos.indexAfter()` at the default depth. -/
def RPos.indexAfterD (r : RPos) : Nat :=
  r.index r.depth + (if r.textOffset = 0 then 0 else 1)

/-- `ResolvedPos.start(d)`. -/
def RPos.start (r : RPos) (d : Nat) : Nat :=
  if d = 0 then 0 else r.third (d - 1) + 1

/-- `ResolvedPos.posAtIndex(i)` at the default depth: the start of the
parent's content plus the sizes of the first `i` children. -/
def RPos.posAtIndexD (r : RPos) (i : Nat) : Nat :=
  r.start r.depth + sizesBefore (kidsOf r.parent) i

/-- `ResolvedPos.nodeAfter`. -/
def RPos.nodeAfter (r : RPos) : Option PNode :=
  let parent := r.parent
  let idx := r.index r.depth
  if idx = childCount parent then none
  else
    match (kidsOf parent)[idx]? with
    | none => none
    | some child =>
      let dOff := r.pos - r.third r.depth
      if dOff = 0 then some child
      else
        match child with
        | .text len => some (.text (len - dOff))
        | .block ks => some (.block ks)

/-!
## The block-selection engine (`src/unnamed/part_003`)

Each `SelectionAction` of the source takes the editor state and a
`BlockPosition`; only `state.doc` is consulted, so the embedding passes the
document directly.  A source function returning `BlockPosition | undefined`
becomes `Option BlockPosition`; the non-null assertion in `resolveNode`
(`$from.nodeAfter!`), which would throw at runtime, is modelled as `none`.
-/

/-- `resolveNode($from)`: the node starting at the position together with
the resolved end position `$from.node(0).resolve($from.pos + node.nodeSize)`. -/
def resolveNode (f : RPos) : Option (RPos × PNode) :=
  match f.nodeAfter with
  | none => none
  | some node => some (resolve (f.node 0) (f.pos + nodeSize node), node)

/-- `BlockPosition`: the `$from`/`$to` pair of a single block node
(`bFrom`/`bTo` embed the source's `$from`/`$to`). -/
structure BlockPosition where
  bFrom : RPos
  bTo : RPos
deriving DecidableEq

/-- The one-argument `BlockPosition` constructor, which computes `$to` via
`resolveNode`. -/
def BlockPosition.ofFrom (f : RPos) : Option BlockPosition :=
  match resolveNode f with
  | none => none
  | some t => some ⟨f, t.1⟩

/-- `BlockPosition.create(doc, from)`. -/
def BlockPosition.create (doc : PNode) (pos : Nat) : Option BlockPosition :=
  BlockPosition.ofFrom (resolve doc pos)

/-- `BlockSelection`: an anchor/head pair of block positions. -/
structure BlockSelection where
  anchor : BlockPosition
  head : BlockPosition
deriving DecidableEq

/-- The `BlockSelection` constructor of `part_003`: when the head's range
encapsulates the anchor's range the head wins as both anchor and head; the
opposite containment direction is commented out in the source and left
un-normalized. -/
def mkBlockSelection (anchor : BlockPosition) (headArg : Option BlockPosition) :
    BlockSelection :=
  let h := headArg.getD anchor
  if h.bFrom.pos ≤ anchor.bFrom.pos ∧ anchor.bTo.pos ≤ h.bTo.pos
  then ⟨h, h⟩
  else ⟨anchor, h⟩

/-- `expand` of the second revision in `src/unnamed/part_002` (whose plain
two-field `BlockSelection` constructor does not normalize): collapse to the
head when it encapsulates the anchor. -/
def expand (a b : BlockSelection) : BlockSelection :=
  let anchor := a.anchor
  let h := b.head
  if h.bFrom.pos ≤ anchor.bFrom.pos ∧ anchor.bTo.pos ≤ h.bTo.pos
  then ⟨h, h⟩
  else ⟨anchor, h⟩

/-- `selectParent`: move to the immediate containing block; fails at the
top level. -/
def selectParent (doc : PNode) (sel : BlockPosition) : Option BlockPosition :=
  let f := sel.bFrom
  if f.depth = 0 then none
  else BlockPosition.create doc f.beforeD

/-- `selectFirstChild`: move to the first child if it is a block. -/
def selectFirstChild (doc : PNode) (sel : BlockPosition) : Option BlockPosition :=
  let f := sel.bFrom
  match f.nodeAfter with
  | none => none
  | some n =>
    match firstChild n with
    | none => none
    | some c => if isBlock c then BlockPosition.create doc (f.pos + 1) else none

/-- `selectNextSibling`: move to the next sibling; fails at the last one. -/
def selectNextSibling (doc : PNode) (sel : BlockPosition) : Option BlockPosition :=
  let t := sel.bTo
  let nextIndex := t.indexAfterD
  if nextIndex ≥ childCount t.parent then none
  else BlockPosition.create doc (t.posAtIndexD nextIndex)

/-- `selectPrevSibling`: move to the previous sibling; fails at the first
one (the source's `prevIndex` is a JS number, so it is modelled as `Int`). -/
def selectPrevSibling (doc : PNode) (sel : BlockPosition) : Option BlockPosition :=
  let f := sel.bFrom
  let prevIndex : Int := (f.indexAfterD : Int) - 1
  if prevIndex < 0 then none
  else BlockPosition.create doc (f.posAtIndexD prevIndex.toNat)

/-- The while-loop of `selectNextParentSubling`, climbing parents looking
for a next sibling.  The fuel bounds the ancestor chain the source's loop
walks; each `selectParent` step loses one depth level, so the starting
depth plus one is always enough. -/
def selectNextParentSublingGo (doc : PNode) : Nat → BlockPosition → Option BlockPosition
  | 0, _ => none
  | fuel + 1, sel =>
    match selectParent doc sel with
    | none => none
    | some parent =>
      match selectNextSibling doc parent with
      | some n => some n
      | none => selectNextParentSublingGo doc fuel parent

/-- `selectNextParentSubling` (spelled as in the source): the next sibling
of the nearest ancestor that has one. -/
def selectNextParentSubling (doc : PNode) (sel : BlockPosition) : Option BlockPosition :=
  selectNextParentSublingGo doc (sel.bFrom.depth + 1) sel

/-- `selectNext`: first child, else next sibling, else next parent sibling. -/
def selectNext (doc : PNode) (sel : BlockPosition) : Option BlockPosition :=
  match selectFirstChild doc sel with
  | some n => some n
  | none =>
    match selectNextSibling doc sel with
    | some n => some n
    | none => selectNextParentSubling doc sel

/-- The while-loop of `selectLastChild`, walking next siblings to the last
one.  The fuel bounds the sibling count; a node's child count is below the
document's size, so `nodeSize doc` is always enough. -/
def lastSiblingGo (doc : PNode) : Nat → BlockPosition → BlockPosition
  | 0, cur => cur
  | fuel + 1, cur =>
    match selectNextSibling doc cur with
    | none => cur
    | some n => lastSiblingGo doc fuel n

/-- `selectLastChild`: the last block child, via the first child and the
sibling walk. -/
def selectLastChild (doc : PNode) (sel : BlockPosition) : Option BlockPosition :=
  match selectFirstChild doc sel with
  | none => none
  | some first => some (lastSiblingGo doc (nodeSize doc) first)

/-- The while-loop of `selectPrev` descending through last children.  The
fuel bounds the descent depth; the tree height is below the document's
size, so `nodeSize doc` is always enough. -/
def deepLastGo (doc : PNode) : Nat → BlockPosition → BlockPosition
  | 0, cur => cur
  | fuel + 1, cur =>
    match selectLastChild doc cur with
    | none => cur
    | some l => deepLastGo doc fuel l

/-- `selectPrev`: previous sibling's deepest last descendant, else parent. -/
def selectPrev (doc : PNode) (sel : BlockPosition) : Option BlockPosition :=
  match selectPrevSibling doc sel with
  | some prevSelection => some (deepLastGo doc (nodeSize doc) prevSelection)
  | none => selectParent doc sel

/-- `expandNext`: extend the head to its next sibling, else to the next
parent sibling, combining with the anchor via the normalizing constructor. -/
def expandNext (doc : PNode) (sel : BlockSelection) : Option BlockSelection :=
  match selectNextSibling doc sel.head with
  | some nextSibling => some (mkBlockSelection sel.anchor (some nextSibling))
  | none =>
    match selectNextParentSubling doc sel.head with
    | some nextAbove => some (mkBlockSelection sel.anchor (some nextAbove))
    | none => none

/-- `expandPrev`: extend the head to its previous sibling, else to its
parent, combining with the anchor via the normalizing constructor. -/
def expandPrev (doc : PNode) (sel : BlockSelection) : Option BlockSelection :=
  match selectPrevSibling doc sel.head with
  | some prevSibling => some (mkBlockSelection sel.anchor (some prevSibling))
  | none =>
    match selectParent doc sel.head with
    | some parent => some (mkBlockSelection sel.anchor (some parent))
    | none => none

/-- A `BlockSelectionPluginAction` (the meta payload of a transaction). -/
structure PluginAction where
  newState : Option BlockSelection
deriving DecidableEq

/-- A transaction, as far as the plugin observes it: the optional
block-selection meta payload plus the position mapping the document edit
induces (which `apply` never consults). -/
structure PTransaction where
  meta : Option PluginAction
  mapping : Nat → Nat

/-- `selectionPlugin.state.apply` (identical in `part_002` and `part_003`):
return the action's new state if the transaction carries one, else the
previous state unchanged. -/
def applyPlugin (tr : PTransaction) (state : Option BlockSelection) :
    Option BlockSelection :=
  match tr.meta with
  | some action => action.newState
  | none => state

/-- `selectionCommmand` (spelled as in the source) with a dispatch function
present: the returned pair is (handled, dispatched action if any). -/
def selectionCommmand (doc : PNode)
    (action : PNode → BlockPosition → Option BlockPosition)
    (capture : Bool) (pluginState : Option BlockSelection) :
    Bool × Option PluginAction :=
  match pluginState with
  | none => (false, none)
  | some ps =>
    match action doc ps.head with
    | none => (capture, none)
    | some h => (true, some ⟨some (mkBlockSelection h none)⟩)

/-- `expandCommmand` (spelled as in the source) with a dispatch function
present. -/
def expandCommmand (doc : PNode)
    (action : PNode → BlockSelection → Option BlockSelection)
    (capture : Bool) (pluginState : Option BlockSelection) :
    Bool × Option PluginAction :=
  match pluginState with
  | none => (false, none)
  | some ps =>
    match action doc ps with
    | none => (capture, none)
    | some s => (true, some ⟨some s⟩)

/-- The `Enter` key handler: `(handled, dispatched plugin action, text
cursor position)`; the cursor is placed at `$head.$to.pos - 1`. -/
def enterCommand (pluginState : Option BlockSelection) :
    Bool × Option PluginAction × Option Int :=
  match pluginState with
  | none => (false, none, none)
  | some ps => (true, some ⟨none⟩, some ((ps.head.bTo.pos : Int) - 1))

/-- The shift-click branch of the `mousedown` handler: resolve the clicked
position to its enclosing block and combine with the active selection; the
result is the dispatched plugin action (`none` models the runtime error of
`new BlockPosition` at an exhausted position). -/
def mousedownShift (doc : PNode) (ps : BlockSelection) (clickPos : Nat) :
    Option PluginAction :=
  let rp := resolve doc clickPos
  let nodePos := if rp.depth = 0 then rp.pos else rp.beforeD
  match BlockPosition.ofFrom (resolve doc nodePos) with
  | none => none
  | some nd =>
    let anchor := ps.anchor
    let h := ps.head
    let s := if anchor.bFrom.pos < h.bFrom.pos then anchor else h
    let e := if h.bFrom.pos < anchor.bFrom.pos then anchor else h
    if nd.bFrom.pos < s.bFrom.pos then some ⟨some (mkBlockSelection e (some nd))⟩
    else if nd.bTo.pos > e.bTo.pos then some ⟨some (mkBlockSelection s (some nd))⟩
    else some ⟨some (mkBlockSelection anchor (some nd))⟩

/-!
## Tree paths

Proof infrastructure: a node of the document is addressed by its path of
child indices, and `posInNode` computes the flat position before it, so
that theorems can quantify over "every node of every document".
-/

/-- The node at a path of child indices. -/
def nodeAt : PNode → List Nat → Option PNode
  | n, [] => some n
  | n, i :: p =>
    match (kidsOf n)[i]? with
    | some c => nodeAt c p
    | none => none

/-- The flat position immediately before the node at a path (for the empty
path: the start of the node's content). -/
def posInNode : PNode → List Nat → Nat
  | _, [] => 0
  | n, i :: p =>
    sizesBefore (kidsOf n) i +
      if p = [] then 0
      else
        match (kidsOf n)[i]? with
        | some c => 1 + posInNode c p
        | none => 1

/-- A path addressing an existing block node. -/
def validBlockPath (doc : PNode) (p : List Nat) : Bool :=
  !p.isEmpty &&
    match nodeAt doc p with
    | some t => isBlock t
    | none => false

/-- A boundary path: every step but the last descends into an existing
non-text child, and the last index may also sit one past the final child
list (the position after its last child). -/
def boundaryIn : PNode → List Nat → Bool
  | _, [] => false
  | n, i :: p =>
    if p = [] then decide (i ≤ childCount n)
    else
      match (kidsOf n)[i]? with
      | some c => !isText c && boundaryIn c p
      | none => false

/-- The resolution path entries of the boundary position at a path. -/
def entriesIn : PNode → Nat → List Nat → List (PNode × Nat × Nat)
  | _, _, [] => []
  | n, start, i :: p =>
    (n, i, start + sizesBefore (kidsOf n) i) ::
      if p = [] then []
      else
        match (kidsOf n)[i]? with
        | some c => entriesIn c (start + sizesBefore (kidsOf n) i + 1) p
        | none => []

/-- The parent offset of the boundary position at a path. -/
def lastOffsetIn : PNode → List Nat → Nat
  | _, [] => 0
  | n, i :: p =>
    if p = [] then sizesBefore (kidsOf n) i
    else
      match (kidsOf n)[i]? with
      | some c => lastOffsetIn c p
      | none => 0

/-- Whether a node's first child exists and is a block
(`node.firstChild?.isBlock` of the source). -/
def hasBlockFirstChild (n : PNode) : Bool :=
  match firstChild n with
  | some c => isBlock c
  | none => false

/-- Inner loop of the pre-order sibling search, on the reversed path: try
the next sibling at the current level, else climb one level. -/
def siblingUpRev (doc : PNode) : List Nat → Option (List Nat)
  | [] => none
  | i :: q =>
    match nodeAt doc q.reverse with
    | none => none
    | some parent =>
      if i + 1 < childCount parent then some (q.reverse ++ [i + 1])
      else siblingUpRev doc q

/-- Next sibling of the node at `p`, else of its nearest ancestor that has
one ("next parent sibling"). -/
def siblingUp (doc : PNode) (p : List Nat) : Option (List Nat) :=
  siblingUpRev doc p.reverse

/-- The depth-first pre-order successor as §4.2 of the spec words it: the
first block child if one exists, otherwise the next sibling, otherwise the
next sibling of the nearest ancestor that has one. -/
def specPreorderSucc (doc : PNode) (p : List Nat) : Option (List Nat) :=
  match nodeAt doc p with
  | none => none
  | some t => if hasBlockFirstChild t then some (p ++ [0]) else siblingUp doc p

/-- The relative path of a node's deepest last descendant along block
children (the chain `selectPrev` descends). -/
def deepDesc (n : PNode) : List Nat :=
  if hasBlockFirstChild n then
    match h : (kidsOf n)[childCount n - 1]? with
    | some l => (childCount n - 1) :: deepDesc l
    | none => []
  else []
termination_by sizeOf n
decreasing_by
  exact sizeOf_lt_of_kid (List.getElem?_mem h)

/-- The node reached by descending through last block children (the node
where the chain `selectPrev` descends ends). -/
def deepDescNode (n : PNode) : PNode :=
  if hasBlockFirstChild n then
    match h : (kidsOf n)[childCount n - 1]? with
    | some l => deepDescNode l
    | none => n
  else n
termination_by sizeOf n
decreasing_by
  exact sizeOf_lt_of_kid (List.getElem?_mem h)

/-- A path that descends from `n` to `e` taking the last child at every
step. -/
def IsLastChain : PNode → List Nat → PNode → Prop
  | n, [], e => n = e
  | n, x :: tail, e =>
    x = childCount n - 1 ∧ ∃ c, (kidsOf n)[x]? = some c ∧ IsLastChain c tail e

/-- The `BlockPosition` the engine builds for the node `t` sitting at a
path: `$from` resolved before the node, `$to` resolved after it. -/
def bpOfPath (doc : PNode) (p : List Nat) (t : PNode) : BlockPosition :=
  ⟨resolve doc (posInNode doc p), resolve doc (posInNode doc p + nodeSize t)⟩

/-!
## Example documents

Concrete block trees shaped like the demo documents of the examples
(paragraphs with a little text, a bullet list with nested items), used by
the concrete witnesses and counterexamples below.
-/

/-- A paragraph holding two characters of text. -/
def egPara : PNode := .block [.text 2]

/-- A fallback `BlockPosition` used only to extract `Option` results. -/
def dfltBP : BlockPosition := ⟨⟨0, [], 0⟩, ⟨0, [], 0⟩⟩

/-- A document with a heading, a paragraph, a two-item list whose first
item nests a two-item sublist, and a trailing paragraph. -/
def egDoc : PNode :=
  .block [.block [.text 3], egPara,
    .block [.block [egPara, egPara, .block [.block [egPara], .block [egPara]]],
      .block [egPara]],
    egPara]

/-- The bullet list of `egDoc` (positions 9 to 41). -/
def egUl : BlockPosition := (BlockPosition.create egDoc 9).getD dfltBP

/-- The first list item of `egDoc` (positions 10 to 34), nested inside
`egUl`. -/
def egLi1 : BlockPosition := (BlockPosition.create egDoc 10).getD dfltBP

/-- The bullet-list node of `egDoc` (child 2 of the root). -/
def egUlNode : PNode :=
  .block [.block [egPara, egPara, .block [.block [egPara], .block [egPara]]],
    .block [egPara]]

/-- The first list item of `egUlNode`. -/
def egLi1Node : PNode :=
  .block [egPara, egPara, .block [.block [egPara], .block [egPara]]]

/-- A document `[paragraph, list [item [paragraph], item [paragraph]],
paragraph]`. -/
def egDoc3 : PNode :=
  .block [egPara, .block [.block [egPara], .block [egPara]], egPara]

/-- The list node of `egDoc3` (child 1 of the root). -/
def egUl3Node : PNode := .block [.block [egPara], .block [egPara]]

/-- A list item holding one paragraph (both items of `egUl3Node`). -/
def egLiNode : PNode := .block [egPara]

/-- The paragraph inside the first list item of `egDoc3` (positions 6 to
8): strictly interior in document order. -/
def egBpa : BlockPosition :=
  (BlockPosition.create egDoc3 (posInNode egDoc3 [1, 0, 0])).getD dfltBP

/-- The single-block selection on that paragraph. -/
def egSel3 : BlockSelection := ⟨egBpa, egBpa⟩

/-- A document holding just a list with one item with one paragraph. -/
def egDoc5 : PNode := .block [.block [.block [egPara]]]

/-- The innermost paragraph of `egDoc5` (positions 2 to 4). -/
def egBp5 : BlockPosition := (BlockPosition.create egDoc5 2).getD dfltBP

/-- The single-block selection on that paragraph. -/
def egSel5 : BlockSelection := ⟨egBp5, egBp5⟩

/-- A one-paragraph document. -/
def egDoc6 : PNode := .block [egPara]

/-- The single-block selection on the only paragraph of `egDoc6`. -/
def egSel6 : BlockSelection :=
  ⟨(BlockPosition.create egDoc6 0).getD dfltBP,
   (BlockPosition.create egDoc6 0).getD dfltBP⟩

/-!
## Theorems
-/

/-- Claim C2, counterexample: with the anchor on the bullet list and the
head on the list item nested inside it, the anchor's range fully contains
the head's, yet the combined selection is not normalized to a single-block
selection — the constructor keeps the pair as is (only the opposite
containment direction collapses). -/
theorem c2_cex :
    egUl.bFrom.pos ≤ egLi1.bFrom.pos ∧ egLi1.bTo.pos ≤ egUl.bTo.pos ∧
      mkBlockSelection egUl (some egLi1) ≠ ⟨egUl, egUl⟩ ∧
      (mkBlockSelection egUl (some egLi1)).anchor ≠
        (mkBlockSelection egUl (some egLi1)).head := by
  decide

/-- Claim C2, amended: combining an anchor and a head normalizes to a
single-block selection only when the head's range contains the anchor's
range (then the head wins as both anchor and head); when the anchor's
range strictly contains the head's, the pair is kept as anchor/head
unchanged.  This holds for the `part_003` constructor and for the
`part_002` `expand` alike. -/
theorem c2_amended (a h : BlockPosition) :
    (h.bFrom.pos ≤ a.bFrom.pos → a.bTo.pos ≤ h.bTo.pos →
      mkBlockSelection a (some h) = ⟨h, h⟩ ∧ expand ⟨a, a⟩ ⟨h, h⟩ = ⟨h, h⟩) ∧
    (¬(h.bFrom.pos ≤ a.bFrom.pos ∧ a.bTo.pos ≤ h.bTo.pos) →
      mkBlockSelection a (some h) = ⟨a, h⟩ ∧ expand ⟨a, a⟩ ⟨h, h⟩ = ⟨a, h⟩) := by
  constructor
  · intro h1 h2
    constructor <;> simp [mkBlockSelection, expand, h1, h2]
  · intro h12
    constructor <;> simp [mkBlockSelection, expand, h12]

/-- Claim C2, witness for the amended theorem at a concrete input: a head
containing the anchor collapses to the head. -/
theorem c2_amended_witness :
    mkBlockSelection egLi1 (some egUl) = ⟨egUl, egUl⟩ :=
  ((c2_amended egLi1 egUl).1 (by decide) (by decide)).1

/-- Claim C3, counterexample: starting from the paragraph inside the first
list item of `egDoc3` — a block strictly interior in document order (both
`selectPrev` and `selectNext` succeed there) — `expandNext` jumps to the
next parent sibling (the second list item) and `expandPrev` then returns
the first list item, which contains the anchor, so the selection collapses
to the list item: the resulting head differs from the original head. -/
theorem c3_cex :
    (selectPrev egDoc3 egBpa).isSome ∧ (selectNext egDoc3 egBpa).isSome ∧
      ((expandNext egDoc3 egSel3).bind (expandPrev egDoc3)).map
          BlockSelection.head ≠ some egSel3.head := by
  decide

/-- Claim C5, counterexample: with the selection on the paragraph of
`egDoc5` and a shift-click resolving to position 0 (before the list, which
encloses the whole selection), the clicked block lies strictly before the
selection's start, but the result does not keep the current end as anchor:
the normalizing constructor collapses it to the clicked list as both
anchor and head. -/
theorem c5_cex :
    (((BlockPosition.create egDoc5 0).getD dfltBP).bFrom.pos <
        egSel5.head.bFrom.pos) ∧
      mousedownShift egDoc5 egSel5 0 ≠
        some ⟨some ⟨egSel5.head, (BlockPosition.create egDoc5 0).getD dfltBP⟩⟩ ∧
      (mousedownShift egDoc5 egSel5 0).map
          (fun a => a.newState.map BlockSelection.anchor) =
        some (some (some ((BlockPosition.create egDoc5 0).getD dfltBP))) := by
  decide

/-- Claim C5, amended: the clicked block is combined with the kept boundary
through the normalizing `BlockSelection` constructor — the current end as
anchor when the click lies strictly before the selection's start, the
current start when it lies after the end, the existing anchor when it lies
inside — so the clicked block always becomes the head, and it also replaces
the kept anchor whenever its range contains the kept block's range. -/
theorem c5_amended (doc : PNode) (ps : BlockSelection) (clickPos : Nat)
    (nd : BlockPosition)
    (hnd : BlockPosition.ofFrom
      (resolve doc
        (if (resolve doc clickPos).depth = 0 then (resolve doc clickPos).pos
         else (resolve doc clickPos).beforeD)) = some nd) :
    (nd.bFrom.pos <
        (if ps.anchor.bFrom.pos < ps.head.bFrom.pos then ps.anchor
         else ps.head).bFrom.pos →
      mousedownShift doc ps clickPos =
        some ⟨some (mkBlockSelection
          (if ps.head.bFrom.pos < ps.anchor.bFrom.pos then ps.anchor
           else ps.head) (some nd))⟩) ∧
    (¬nd.bFrom.pos <
        (if ps.anchor.bFrom.pos < ps.head.bFrom.pos then ps.anchor
         else ps.head).bFrom.pos →
      nd.bTo.pos >
        (if ps.head.bFrom.pos < ps.anchor.bFrom.pos then ps.anchor
         else ps.head).bTo.pos →
      mousedownShift doc ps clickPos =
        some ⟨some (mkBlockSelection
          (if ps.anchor.bFrom.pos < ps.head.bFrom.pos then ps.anchor
           else ps.head) (some nd))⟩) ∧
    (¬nd.bFrom.pos <
        (if ps.anchor.bFrom.pos < ps.head.bFrom.pos then ps.anchor
         else ps.head).bFrom.pos →
      ¬nd.bTo.pos >
        (if ps.head.bFrom.pos < ps.anchor.bFrom.pos then ps.anchor
         else ps.head).bTo.pos →
      mousedownShift doc ps clickPos =
        some ⟨some (mkBlockSelection ps.anchor (some nd))⟩) ∧
    (∀ x, (mkBlockSelection x (some nd)).head = nd) ∧
    (∀ x,
      (nd.bFrom.pos ≤ x.bFrom.pos → x.bTo.pos ≤ nd.bTo.pos →
        (mkBlockSelection x (some nd)).anchor = nd) ∧
      (¬(nd.bFrom.pos ≤ x.bFrom.pos ∧ x.bTo.pos ≤ nd.bTo.pos) →
        (mkBlockSelection x (some nd)).anchor = x)) := by
  refine ⟨?_, ?_, ?_, ?_, ?_⟩
  · intro hlt
    simp only [mousedownShift, hnd]
    rw [if_pos hlt]
  · intro hge hgt
    simp only [mousedownShift, hnd]
    rw [if_neg hge, if_pos hgt]
  · intro hge hle
    simp only [mousedownShift, hnd]
    rw [if_neg hge, if_neg hle]
  · intro x
    by_cases hc : nd.bFrom.pos ≤ x.bFrom.pos ∧ x.bTo.pos ≤ nd.bTo.pos
    · simp [mkBlockSelection, hc]
    · simp only [mkBlockSelection, Option.getD_some, if_neg hc]
  · intro x
    constructor
    · intro h1 h2
      simp [mkBlockSelection, h1, h2]
    · intro hc
      simp only [mkBlockSelection, Option.getD_some, if_neg hc]

/-- Claim C5, witness for the amended theorem: the counterexample input
again, now showing the amended description holds there — the click before
the start combines the current end with the clicked list through the
constructor, and since the clicked list's range contains the kept
paragraph's range, the anchor too becomes the clicked list. -/
theorem c5_amended_witness :
    mousedownShift egDoc5 egSel5 0 =
      some ⟨some (mkBlockSelection egSel5.head
        (some ((BlockPosition.create egDoc5 0).getD dfltBP)))⟩ ∧
    (mkBlockSelection egSel5.head
        (some ((BlockPosition.create egDoc5 0).getD dfltBP))).anchor =
      (BlockPosition.create egDoc5 0).getD dfltBP := by
  have h := c5_amended egDoc5 egSel5 0
    ((BlockPosition.create egDoc5 0).getD dfltBP) (by decide)
  exact ⟨h.1 (by decide), (h.2.2.2.2 egSel5.head).1 (by decide) (by decide)⟩

/-- Claim C6: while block mode is active, a navigation or expand command
whose underlying primitive returns no target dispatches nothing (the
block-selection state is left unchanged) and still returns `true`,
consuming the key event — all such commands are registered with
`capture = true`. -/
theorem c6_capture (doc : PNode)
    (act : PNode → BlockPosition → Option BlockPosition)
    (eact : PNode → BlockSelection → Option BlockSelection)
    (ps : BlockSelection)
    (h1 : act doc ps.head = none) (h2 : eact doc ps = none) :
    selectionCommmand doc act true (some ps) = (true, none) ∧
      expandCommmand doc eact true (some ps) = (true, none) := by
  constructor
  · simp [selectionCommmand, h1]
  · simp [expandCommmand, h2]

/-- Claim C6, witness: in a one-paragraph document, `selectParent` (at the
top level) and `expandNext` (nothing after) both fail, and the commands
consume the event without dispatching. -/
theorem c6_capture_witness :
    selectionCommmand egDoc6 selectParent true (some egSel6) = (true, none) ∧
      expandCommmand egDoc6 expandNext true (some egSel6) = (true, none) :=
  c6_capture egDoc6 selectParent expandNext egSel6 (by decide) (by decide)

/-- Claim C7: the `Enter` command with a block selection active reports the
event handled, dispatches the `null` plugin state (exiting block mode),
and places the text cursor at `$head.$to.pos - 1`, the end of the head
block. -/
theorem c7_enter (ps : BlockSelection) :
    enterCommand (some ps) =
      (true, some ⟨none⟩, some ((ps.head.bTo.pos : Int) - 1)) := rfl

/-- Claim C9: a transaction carrying no block-selection meta action leaves
the plugin state unchanged, whatever position mapping the transaction's
document edit induces — the stored positions are never remapped. -/
theorem c9_apply_frame (mapping : Nat → Nat) (s : Option BlockSelection) :
    applyPlugin ⟨none, mapping⟩ s = s := rfl

/-!
## Size and well-formedness lemmas
-/

theorem getElem?_of_lt {ks : List PNode} {i : Nat} (h : i < ks.length) :
    ∃ k, ks[i]? = some k := ⟨ks[i], List.getElem?_eq_getElem h⟩

theorem lt_length_of_getElem? {ks : List PNode} {i : Nat} {k : PNode}
    (h : ks[i]? = some k) : i < ks.length :=
  (List.getElem?_eq_some.mp h).choose

theorem totalSize_append (xs ys : List PNode) :
    totalSize (xs ++ ys) = totalSize xs + totalSize ys := by
  induction xs with
  | nil => simp [totalSize]
  | cons x xs ih => simp [totalSize, ih]; omega

theorem sizesBefore_zero (ks : List PNode) : sizesBefore ks 0 = 0 := rfl

theorem sizesBefore_cons_succ (k0 : PNode) (ks : List PNode) (j : Nat) :
    sizesBefore (k0 :: ks) (j + 1) = nodeSize k0 + sizesBefore ks j := by
  simp [sizesBefore, totalSize]

theorem sizesBefore_succ {ks : List PNode} {i : Nat} {k : PNode}
    (h : ks[i]? = some k) :
    sizesBefore ks (i + 1) = sizesBefore ks i + nodeSize k := by
  rw [sizesBefore, List.take_succ, h, totalSize_append]
  simp [sizesBefore, totalSize]

theorem totalSize_take_le (ks : List PNode) (i : Nat) :
    totalSize (ks.take i) ≤ totalSize ks := by
  conv_rhs => rw [← List.take_append_drop i ks]
  rw [totalSize_append]
  omega

theorem sizesBefore_le_total (ks : List PNode) (i : Nat) :
    sizesBefore ks i ≤ totalSize ks := totalSize_take_le ks i

theorem sizesBefore_mono (ks : List PNode) {i j : Nat} (h : i ≤ j) :
    sizesBefore ks i ≤ sizesBefore ks j := by
  have heq : ks.take i = (ks.take j).take i := by
    rw [List.take_take, Nat.min_eq_left h]
  rw [sizesBefore, heq]
  exact totalSize_take_le (ks.take j) i

theorem sizesBefore_length (ks : List PNode) :
    sizesBefore ks ks.length = totalSize ks := by
  simp [sizesBefore]

theorem nodeSize_pos {n : PNode} (h : Wf n = true) : 1 ≤ nodeSize n := by
  cases n with
  | text len => simp [Wf] at h; simpa [nodeSize] using h
  | block ks => simp [nodeSize]; omega

theorem wf_block {ks : List PNode} (h : Wf (.block ks) = true) :
    childrenHomog ks = true ∧ WfList ks = true := by
  simpa [Wf, Bool.and_eq_true] using h

theorem wfList_mem {ks : List PNode} {k : PNode}
    (h : WfList ks = true) (hm : k ∈ ks) : Wf k = true := by
  induction ks with
  | nil => simp at hm
  | cons k0 ks ih =>
    simp only [WfList, Bool.and_eq_true] at h
    rcases List.mem_cons.mp hm with hm | hm
    · exact hm ▸ h.1
    · exact ih h.2 hm

theorem wf_kid {n k : PNode} (h : Wf n = true) (hm : k ∈ kidsOf n) :
    Wf k = true := by
  cases n with
  | text len => simp [kidsOf] at hm
  | block ks => exact wfList_mem (wf_block h).2 (by simpa [kidsOf] using hm)

theorem kid_size_pos {n k : PNode} (h : Wf n = true) (hm : k ∈ kidsOf n) :
    1 ≤ nodeSize k := nodeSize_pos (wf_kid h hm)

theorem sizesBefore_lt_total {ks : List PNode} {i : Nat} {k : PNode}
    (h : ks[i]? = some k) (hk : 1 ≤ nodeSize k) :
    sizesBefore ks i < totalSize ks := by
  have h1 := sizesBefore_succ h
  have h2 := sizesBefore_le_total ks (i + 1)
  omega

theorem sizesBefore_one_le {ks : List PNode} {i : Nat} {k : PNode}
    (h : ks[i]? = some k) (hk : 1 ≤ nodeSize k) :
    1 ≤ sizesBefore ks (i + 1) := by
  have h1 := sizesBefore_succ h
  have h2 := sizesBefore_mono ks (Nat.zero_le i)
  rw [sizesBefore_zero] at h2
  omega

/-!
## `findIndex` characterization
-/

theorem findIndexAux_boundary :
    ∀ (ks : List PNode) (j i0 cur : Nat) (k : PNode),
      ks[j]? = some k → 1 ≤ nodeSize k →
      findIndexAux ks i0 cur (cur + sizesBefore ks (j + 1)) =
        (i0 + j + 1, cur + sizesBefore ks (j + 1))
  | [], j, _, _, k, h, _ => by simp at h
  | k0 :: ks, 0, i0, cur, k, h, hk => by
    have hk0 : k0 = k := by simpa using h
    subst hk0
    rw [sizesBefore_cons_succ, sizesBefore_zero]
    simp [findIndexAux]
  | k0 :: ks, j + 1, i0, cur, k, h, hk => by
    rw [List.getElem?_cons_succ] at h
    have hge := sizesBefore_one_le h hk
    rw [sizesBefore_cons_succ]
    have hord : ¬(cur + (nodeSize k0 + sizesBefore ks (j + 1)) ≤ cur + nodeSize k0) := by
      omega
    simp only [findIndexAux, if_neg hord]
    have hrec := findIndexAux_boundary ks j (i0 + 1) (cur + nodeSize k0) k h hk
    rw [show cur + nodeSize k0 + sizesBefore ks (j + 1) =
      cur + (nodeSize k0 + sizesBefore ks (j + 1)) by omega] at hrec
    rw [hrec, Prod.mk.injEq]
    omega

theorem findIndexAux_interior :
    ∀ (ks : List PNode) (j i0 cur pos : Nat) (k : PNode),
      ks[j]? = some k →
      cur + sizesBefore ks j < pos → pos < cur + sizesBefore ks j + nodeSize k →
      findIndexAux ks i0 cur pos = (i0 + j, cur + sizesBefore ks j)
  | [], j, _, _, _, k, h, _, _ => by simp at h
  | k0 :: ks, 0, i0, cur, pos, k, h, hlo, hhi => by
    have hk0 : k0 = k := by simpa using h
    subst hk0
    rw [sizesBefore_zero] at hlo hhi ⊢
    have hle : pos ≤ cur + nodeSize k0 := by omega
    have hne : ¬(pos = cur + nodeSize k0) := by omega
    simp [findIndexAux, hle, hne]
  | k0 :: ks, j + 1, i0, cur, pos, k, h, hlo, hhi => by
    rw [List.getElem?_cons_succ] at h
    rw [sizesBefore_cons_succ] at hlo hhi ⊢
    have hord : ¬(pos ≤ cur + nodeSize k0) := by omega
    simp only [findIndexAux, if_neg hord]
    have hrec := findIndexAux_interior ks j (i0 + 1) (cur + nodeSize k0) pos k h
      (by omega) (by omega)
    rw [hrec, Prod.mk.injEq]
    omega

theorem findIndex_boundary {ks : List PNode} {i : Nat}
    (hpos : ∀ k ∈ ks, 1 ≤ nodeSize k) (hle : i ≤ ks.length) :
    findIndex ks (sizesBefore ks i) = (i, sizesBefore ks i) := by
  rcases Nat.eq_zero_or_pos i with hi | hi
  · subst hi
    simp [findIndex, sizesBefore_zero]
  · obtain ⟨i', rfl⟩ : ∃ i', i = i' + 1 := ⟨i - 1, by omega⟩
    obtain ⟨k0, hk0⟩ := @getElem?_of_lt ks i' (by omega)
    have hk0pos := hpos k0 (List.getElem?_mem hk0)
    have hne0 : sizesBefore ks (i' + 1) ≠ 0 := by
      have := sizesBefore_one_le hk0 hk0pos
      omega
    rcases Nat.lt_or_ge (i' + 1) ks.length with hlt | hge
    · obtain ⟨k, hk⟩ := @getElem?_of_lt ks (i' + 1) hlt
      have hkpos : 1 ≤ nodeSize k := hpos k (List.getElem?_mem hk)
      have hnet : sizesBefore ks (i' + 1) ≠ totalSize ks := by
        have := sizesBefore_lt_total hk hkpos
        omega
      rw [findIndex, if_neg hne0, if_neg hnet]
      have hrec := findIndexAux_boundary ks i' 0 0 k0 hk0 hk0pos
      simpa using hrec
    · have hieq : i' + 1 = ks.length := by omega
      rw [hieq, sizesBefore_length]
      have htpos : 0 < totalSize ks := by
        have h1 := sizesBefore_one_le hk0 hk0pos
        have h2 := sizesBefore_le_total ks (i' + 1)
        omega
      rw [findIndex, if_neg (by omega), if_pos rfl]

theorem findIndex_interior {ks : List PNode} {j pos : Nat} {k : PNode}
    (hk : ks[j]? = some k)
    (hlo : sizesBefore ks j < pos) (hhi : pos < sizesBefore ks j + nodeSize k) :
    findIndex ks pos = (j, sizesBefore ks j) := by
  have hne0 : pos ≠ 0 := by omega
  have hnet : pos ≠ totalSize ks := by
    have h1 := sizesBefore_succ hk
    have h2 := sizesBefore_le_total ks (j + 1)
    omega
  rw [findIndex, if_neg hne0, if_neg hnet]
  have hrec := findIndexAux_interior ks j 0 0 pos k hk (by omega) (by omega)
  simpa using hrec

/-!
## Path lemmas and the `resolve` correspondence
-/

theorem nodeAt_nil (n : PNode) : nodeAt n [] = some n := rfl

theorem nodeAt_cons (n : PNode) (i : Nat) (p : List Nat) :
    nodeAt n (i :: p) =
      (match (kidsOf n)[i]? with
       | some c => nodeAt c p
       | none => none) := rfl

theorem nodeAt_cons_some {n c : PNode} {i : Nat} (hc : (kidsOf n)[i]? = some c)
    (p : List Nat) : nodeAt n (i :: p) = nodeAt c p := by
  rw [nodeAt_cons, hc]

theorem nodeAt_cons_none {n : PNode} {i : Nat} (hc : (kidsOf n)[i]? = none)
    (p : List Nat) : nodeAt n (i :: p) = none := by
  rw [nodeAt_cons, hc]

theorem nodeAt_single (n : PNode) (j : Nat) : nodeAt n [j] = (kidsOf n)[j]? := by
  rw [nodeAt_cons]
  cases (kidsOf n)[j]? <;> simp [nodeAt_nil]

theorem nodeAt_snoc :
    ∀ (q : List Nat) (n : PNode) (j : Nat),
      nodeAt n (q ++ [j]) = (nodeAt n q).bind (fun P => (kidsOf P)[j]?)
  | [], n, j => by simp [nodeAt_nil, nodeAt_single]
  | i :: q, n, j => by
    rw [List.cons_append, nodeAt_cons, nodeAt_cons]
    cases (kidsOf n)[i]? with
    | none => rfl
    | some c => exact nodeAt_snoc q c j

theorem isText_false_of_nodeAt {c : PNode} {p : List Nat} {t : PNode}
    (hp : p ≠ []) (h : nodeAt c p = some t) : isText c = false := by
  cases c with
  | block ks => rfl
  | text len =>
    exfalso
    cases p with
    | nil => exact hp rfl
    | cons i p' =>
      rw [nodeAt_cons] at h
      simp [kidsOf] at h

theorem posInNode_nil (n : PNode) : posInNode n [] = 0 := rfl

theorem posInNode_single (n : PNode) (i : Nat) :
    posInNode n [i] = sizesBefore (kidsOf n) i := by
  simp [posInNode]

theorem posInNode_cons {n c : PNode} {i : Nat} {p : List Nat}
    (hp : p ≠ []) (hc : (kidsOf n)[i]? = some c) :
    posInNode n (i :: p) = sizesBefore (kidsOf n) i + 1 + posInNode c p := by
  rw [posInNode, if_neg hp, hc]
  show sizesBefore (kidsOf n) i + (1 + posInNode c p) = _
  omega

theorem posInNode_snoc :
    ∀ (q : List Nat) (n P : PNode) (j : Nat), nodeAt n q = some P →
      posInNode n (q ++ [j]) =
        (if q = [] then 0 else posInNode n q + 1) + sizesBefore (kidsOf P) j
  | [], n, P, j, h => by
    rw [nodeAt_nil] at h
    cases h
    simp [posInNode_single]
  | i :: q, n, P, j, h => by
    cases hc : (kidsOf n)[i]? with
    | none => rw [nodeAt_cons_none hc] at h; exact absurd h (by simp)
    | some c =>
      rw [nodeAt_cons_some hc] at h
      have ih := posInNode_snoc q c P j h
      rw [List.cons_append, posInNode_cons (by simp) hc, ih]
      cases q with
      | nil =>
        rw [nodeAt_nil] at h
        cases h
        simp [posInNode_single, posInNode_nil]
      | cons i' q' =>
        simp only [if_neg (by simp : ¬(i' :: q' : List Nat) = []),
          if_neg (by simp : ¬(i :: i' :: q' : List Nat) = [])]
        rw [posInNode_cons (by simp) hc]
        omega

theorem boundaryIn_single (n : PNode) (i : Nat) :
    boundaryIn n [i] = decide (i ≤ childCount n) := by
  simp [boundaryIn]

theorem boundaryIn_cons {n c : PNode} {i : Nat} {p : List Nat}
    (hp : p ≠ []) (hc : (kidsOf n)[i]? = some c) :
    boundaryIn n (i :: p) = (!isText c && boundaryIn c p) := by
  simp only [boundaryIn, if_neg hp, hc]

theorem boundaryIn_of_nodeAt :
    ∀ {p : List Nat} {n t : PNode}, nodeAt n p = some t → p ≠ [] →
      boundaryIn n p = true
  | [], _, _, _, hp => absurd rfl hp
  | i :: p, n, t, h, _ => by
    cases hc : (kidsOf n)[i]? with
    | none => rw [nodeAt_cons_none hc] at h; exact absurd h (by simp)
    | some c =>
      rw [nodeAt_cons_some hc] at h
      cases hp : decide (p = []) with
      | true =>
        have hpe : p = [] := of_decide_eq_true hp
        subst hpe
        rw [nodeAt_nil] at h
        rw [boundaryIn_single]
        have := lt_length_of_getElem? hc
        simp [childCount]
        omega
      | false =>
        have hpe : p ≠ [] := of_decide_eq_false hp
        rw [boundaryIn_cons hpe hc, isText_false_of_nodeAt hpe h,
          boundaryIn_of_nodeAt h hpe]
        rfl

theorem boundaryIn_snoc :
    ∀ {q : List Nat} {n P : PNode} {j : Nat}, nodeAt n q = some P →
      isText P = false → j ≤ childCount P → boundaryIn n (q ++ [j]) = true
  | [], n, P, j, h, _, hj => by
    rw [nodeAt_nil] at h
    cases h
    simp [boundaryIn_single, hj]
  | i :: q, n, P, j, h, hP, hj => by
    cases hc : (kidsOf n)[i]? with
    | none => rw [nodeAt_cons_none hc] at h; exact absurd h (by simp)
    | some c =>
      rw [nodeAt_cons_some hc] at h
      have hne : q ++ [j] ≠ ([] : List Nat) := by simp
      rw [List.cons_append, boundaryIn_cons hne hc,
        boundaryIn_snoc h hP hj]
      cases q with
      | nil =>
        rw [nodeAt_nil] at h
        cases h
        rw [hP]
        rfl
      | cons i' q' =>
        rw [isText_false_of_nodeAt (by simp) h]
        rfl

theorem posInNode_le_content :
    ∀ {p : List Nat} {n : PNode}, boundaryIn n p = true →
      posInNode n p ≤ totalSize (kidsOf n)
  | [], n, _ => by rw [posInNode_nil]; omega
  | i :: p, n, hb => by
    cases hp : decide (p = []) with
    | true =>
      have hpe : p = [] := of_decide_eq_true hp
      subst hpe
      rw [posInNode_single]
      exact sizesBefore_le_total _ _
    | false =>
      have hpe : p ≠ [] := of_decide_eq_false hp
      cases hc : (kidsOf n)[i]? with
      | none =>
        exfalso
        simp only [boundaryIn, if_neg hpe, hc] at hb
        exact Bool.false_ne_true hb
      | some c =>
        rw [boundaryIn_cons hpe hc, Bool.and_eq_true] at hb
        have hcb : isText c = false := by
          cases hv : isText c
          · rfl
          · rw [hv] at hb; exact absurd hb.1 (by simp)
        have hrec := posInNode_le_content (n := c) hb.2
        rw [posInNode_cons hpe hc]
        have hsz : nodeSize c = 2 + totalSize (kidsOf c) := by
          cases c with
          | text len => simp [isText] at hcb
          | block ks => simp [nodeSize, kidsOf]
        have h1 := sizesBefore_succ hc
        have h2 := sizesBefore_le_total (kidsOf n) (i + 1)
        omega

theorem entriesIn_single (n : PNode) (start i : Nat) :
    entriesIn n start [i] = [(n, i, start + sizesBefore (kidsOf n) i)] := by
  simp [entriesIn]

theorem entriesIn_cons {n c : PNode} {i : Nat} {p : List Nat}
    (hp : p ≠ []) (hc : (kidsOf n)[i]? = some c) (start : Nat) :
    entriesIn n start (i :: p) =
      (n, i, start + sizesBefore (kidsOf n) i) ::
        entriesIn c (start + sizesBefore (kidsOf n) i + 1) p := by
  rw [entriesIn, if_neg hp, hc]

theorem lastOffsetIn_single (n : PNode) (i : Nat) :
    lastOffsetIn n [i] = sizesBefore (kidsOf n) i := by
  simp [lastOffsetIn]

theorem lastOffsetIn_cons {n c : PNode} {i : Nat} {p : List Nat}
    (hp : p ≠ []) (hc : (kidsOf n)[i]? = some c) :
    lastOffsetIn n (i :: p) = lastOffsetIn c p := by
  rw [lastOffsetIn, if_neg hp, hc]

theorem resolveGo_boundary :
    ∀ (p : List Nat) (n : PNode) (start fuel : Nat),
      Wf n = true → boundaryIn n p = true → p.length ≤ fuel →
      resolveGo fuel n start (posInNode n p) =
        (entriesIn n start p, lastOffsetIn n p)
  | [], n, _, _, _, hb, _ => by simp [boundaryIn] at hb
  | i :: p', n, start, fuel, hwf, hb, hfuel => by
    obtain ⟨f, rfl⟩ : ∃ f, fuel = f + 1 := ⟨fuel - 1, by simp at hfuel; omega⟩
    have hpos : ∀ k ∈ kidsOf n, 1 ≤ nodeSize k := fun k hk => kid_size_pos hwf hk
    cases hp : decide (p' = []) with
    | true =>
      have hpe : p' = [] := of_decide_eq_true hp
      subst hpe
      have hle : i ≤ childCount n := by
        rw [boundaryIn_single] at hb
        exact of_decide_eq_true hb
      have hfi := findIndex_boundary hpos hle
      rw [posInNode_single]
      simp only [resolveGo, hfi]
      simp [entriesIn_single, lastOffsetIn_single]
    | false =>
      have hpe : p' ≠ [] := of_decide_eq_false hp
      cases hc : (kidsOf n)[i]? with
      | none =>
        exfalso
        simp only [boundaryIn, if_neg hpe, hc] at hb
        exact Bool.false_ne_true hb
      | some c =>
        rw [boundaryIn_cons hpe hc, Bool.and_eq_true] at hb
        have hnt : isText c = false := by
          cases hv : isText c
          · rfl
          · rw [hv] at hb; exact absurd hb.1 (by simp)
        have hbc : boundaryIn c p' = true := hb.2
        have hwfc : Wf c = true := wf_kid hwf (List.getElem?_mem hc)
        have hcsz : nodeSize c = 2 + totalSize (kidsOf c) := by
          cases c with
          | text len => simp [isText] at hnt
          | block ks => simp [nodeSize, kidsOf]
        have hple := posInNode_le_content hbc
        rw [posInNode_cons hpe hc]
        have hfi := findIndex_interior hc
          (show sizesBefore (kidsOf n) i < sizesBefore (kidsOf n) i + 1 + posInNode c p' by
            omega)
          (show sizesBefore (kidsOf n) i + 1 + posInNode c p' <
              sizesBefore (kidsOf n) i + nodeSize c by omega)
        simp only [resolveGo, hfi]
        rw [show sizesBefore (kidsOf n) i + 1 + posInNode c p' - sizesBefore (kidsOf n) i =
          1 + posInNode c p' by omega]
        rw [if_neg (by omega : ¬(1 + posInNode c p' = 0))]
        simp only [hc, hnt, Bool.false_eq_true, if_false]
        rw [show 1 + posInNode c p' - 1 = posInNode c p' by omega]
        have ih := resolveGo_boundary p' c (start + sizesBefore (kidsOf n) i + 1) f
          hwfc hbc (by simp at hfuel ⊢; omega)
        rw [ih, entriesIn_cons hpe hc, lastOffsetIn_cons hpe hc]

theorem entriesIn_length :
    ∀ {p : List Nat} {n : PNode} (start : Nat), boundaryIn n p = true →
      (entriesIn n start p).length = p.length
  | [], n, _, hb => by simp [boundaryIn] at hb
  | i :: p', n, start, hb => by
    cases hp : decide (p' = []) with
    | true =>
      have hpe : p' = [] := of_decide_eq_true hp
      subst hpe
      rw [entriesIn_single]
      rfl
    | false =>
      have hpe : p' ≠ [] := of_decide_eq_false hp
      cases hc : (kidsOf n)[i]? with
      | none =>
        exfalso
        simp only [boundaryIn, if_neg hpe, hc] at hb
        exact Bool.false_ne_true hb
      | some c =>
        rw [boundaryIn_cons hpe hc, Bool.and_eq_true] at hb
        rw [entriesIn_cons hpe hc]
        simp only [List.length_cons]
        rw [entriesIn_length _ hb.2]

theorem nodeAt_take_of_boundary :
    ∀ {p : List Nat} {n : PNode} (d : Nat), boundaryIn n p = true → d < p.length →
      ∃ X, nodeAt n (p.take d) = some X
  | [], n, _, hb, _ => by simp [boundaryIn] at hb
  | i :: p', n, d, hb, hd => by
    cases d with
    | zero => exact ⟨n, nodeAt_nil n⟩
    | succ d' =>
      have hpe : p' ≠ [] := by
        intro he
        subst he
        simp at hd
      cases hc : (kidsOf n)[i]? with
      | none =>
        exfalso
        simp only [boundaryIn, if_neg hpe, hc] at hb
        exact Bool.false_ne_true hb
      | some c =>
        rw [boundaryIn_cons hpe hc, Bool.and_eq_true] at hb
        obtain ⟨X, hX⟩ := nodeAt_take_of_boundary d' hb.2 (by simpa using hd)
        exact ⟨X, by rw [List.take_succ_cons, nodeAt_cons_some hc, hX]⟩

theorem entriesIn_getD :
    ∀ {p : List Nat} {n : PNode} (start d : Nat) {X : PNode},
      boundaryIn n p = true → d < p.length → nodeAt n (p.take d) = some X →
      (entriesIn n start p).getD d (PNode.block [], 0, 0) =
        (X, p.getD d 0, start + posInNode n (p.take (d + 1)))
  | [], n, _, _, _, hb, _, _ => by simp [boundaryIn] at hb
  | i :: p', n, start, d, X, hb, hd, hX => by
    cases d with
    | zero =>
      rw [List.take_zero, nodeAt_nil] at hX
      cases hX
      have htake : (i :: p').take 1 = [i] := by simp
      simp only [Nat.zero_add]
      rw [htake, posInNode_single]
      cases hp : decide (p' = []) with
      | true =>
        have hpe : p' = [] := of_decide_eq_true hp
        subst hpe
        rw [entriesIn_single]
        rfl
      | false =>
        have hpe : p' ≠ [] := of_decide_eq_false hp
        cases hc : (kidsOf n)[i]? with
        | none =>
          exfalso
          simp only [boundaryIn, if_neg hpe, hc] at hb
          exact Bool.false_ne_true hb
        | some c =>
          rw [entriesIn_cons hpe hc]
          rfl
    | succ d' =>
      have hpe : p' ≠ [] := by
        intro he
        subst he
        simp at hd
      cases hc : (kidsOf n)[i]? with
      | none =>
        exfalso
        simp only [boundaryIn, if_neg hpe, hc] at hb
        exact Bool.false_ne_true hb
      | some c =>
        rw [boundaryIn_cons hpe hc, Bool.and_eq_true] at hb
        rw [List.take_succ_cons, nodeAt_cons_some hc] at hX
        have ih := entriesIn_getD (start + sizesBefore (kidsOf n) i + 1) d'
          hb.2 (by simpa using hd) hX
        rw [entriesIn_cons hpe hc]
        simp only [List.getD_cons_succ]
        rw [ih]
        have htk : p'.take (d' + 1) ≠ [] := by
          cases p' with
          | nil => exact absurd rfl hpe
          | cons a p'' => simp
        rw [List.take_succ_cons, posInNode_cons htk hc, Prod.mk.injEq, Prod.mk.injEq]
        refine ⟨rfl, rfl, by omega⟩

/-!
## Components of resolved boundary positions
-/

theorem resolve_pos (doc : PNode) (x : Nat) : (resolve doc x).pos = x := rfl

theorem totalSize_ge_of_mem {ks : List PNode} {k : PNode} (h : k ∈ ks) :
    nodeSize k ≤ totalSize ks := by
  induction ks with
  | nil => simp at h
  | cons k0 ks ih =>
    rcases List.mem_cons.mp h with h | h
    · subst h; simp [totalSize]
    · have := ih h
      simp [totalSize]
      omega

theorem boundary_length_le :
    ∀ {p : List Nat} {n : PNode}, Wf n = true → boundaryIn n p = true →
      p.length ≤ nodeSize n
  | [], n, hwf, _ => by simp
  | i :: p', n, hwf, hb => by
    cases hp : decide (p' = []) with
    | true =>
      have hpe : p' = [] := of_decide_eq_true hp
      subst hpe
      have := nodeSize_pos hwf
      simpa using this
    | false =>
      have hpe : p' ≠ [] := of_decide_eq_false hp
      cases hc : (kidsOf n)[i]? with
      | none =>
        exfalso
        simp only [boundaryIn, if_neg hpe, hc] at hb
        exact Bool.false_ne_true hb
      | some c =>
        rw [boundaryIn_cons hpe hc, Bool.and_eq_true] at hb
        have hrec := boundary_length_le (wf_kid hwf (List.getElem?_mem hc)) hb.2
        have hmem := totalSize_ge_of_mem (List.getElem?_mem hc)
        have hblock : nodeSize n = 2 + totalSize (kidsOf n) := by
          cases n with
          | text len => simp [kidsOf] at hc
          | block ks => simp [nodeSize, kidsOf]
        simp only [List.length_cons]
        omega

theorem resolve_path {doc : PNode} {p : List Nat}
    (hwf : Wf doc = true) (hb : boundaryIn doc p = true) :
    (resolve doc (posInNode doc p)).path = entriesIn doc 0 p := by
  have hlen : p.length ≤ nodeSize doc + 1 := by
    have := boundary_length_le hwf hb
    omega
  rw [resolve]
  simp only [resolveGo_boundary p doc 0 (nodeSize doc + 1) hwf hb hlen]

theorem resolve_parentOffset {doc : PNode} {p : List Nat}
    (hwf : Wf doc = true) (hb : boundaryIn doc p = true) :
    (resolve doc (posInNode doc p)).parentOffset = lastOffsetIn doc p := by
  have hlen : p.length ≤ nodeSize doc + 1 := by
    have := boundary_length_le hwf hb
    omega
  rw [resolve]
  simp only [resolveGo_boundary p doc 0 (nodeSize doc + 1) hwf hb hlen]

theorem resolve_depth {doc : PNode} {p : List Nat}
    (hwf : Wf doc = true) (hb : boundaryIn doc p = true) :
    (resolve doc (posInNode doc p)).depth = p.length - 1 := by
  rw [RPos.depth, resolve_path hwf hb, entriesIn_length 0 hb]

theorem resolve_entry {doc X : PNode} {p : List Nat} {d : Nat}
    (hwf : Wf doc = true) (hb : boundaryIn doc p = true)
    (hd : d < p.length) (hX : nodeAt doc (p.take d) = some X) :
    (resolve doc (posInNode doc p)).entry d =
      (X, p.getD d 0, posInNode doc (p.take (d + 1))) := by
  rw [RPos.entry, resolve_path hwf hb, entriesIn_getD 0 d hb hd hX]
  simp

theorem rsnoc_boundary {doc P : PNode} {q : List Nat} {j : Nat}
    (hq : nodeAt doc q = some P) (hPnt : isText P = false)
    (hj : j ≤ childCount P) : boundaryIn doc (q ++ [j]) = true :=
  boundaryIn_snoc hq hPnt hj

theorem rsnoc_depth {doc P : PNode} {q : List Nat} {j : Nat}
    (hwf : Wf doc = true) (hq : nodeAt doc q = some P)
    (hPnt : isText P = false) (hj : j ≤ childCount P) :
    (resolve doc (posInNode doc (q ++ [j]))).depth = q.length := by
  rw [resolve_depth hwf (rsnoc_boundary hq hPnt hj)]
  simp

theorem rsnoc_entry_last {doc P : PNode} {q : List Nat} {j : Nat}
    (hwf : Wf doc = true) (hq : nodeAt doc q = some P)
    (hPnt : isText P = false) (hj : j ≤ childCount P) :
    (resolve doc (posInNode doc (q ++ [j]))).entry q.length =
      (P, j, posInNode doc (q ++ [j])) := by
  have hd : q.length < (q ++ [j]).length := by simp
  have hX : nodeAt doc ((q ++ [j]).take q.length) = some P := by
    rw [List.take_left]
    exact hq
  rw [resolve_entry hwf (rsnoc_boundary hq hPnt hj) hd hX]
  have h1 : (q ++ [j]).getD q.length 0 = j := by simp [List.getD_append_right]
  have h2 : (q ++ [j]).take (q.length + 1) = q ++ [j] := by
    have : (q ++ [j]).length = q.length + 1 := by simp
    rw [← this, List.take_length]
  rw [h1, h2]

theorem rsnoc_parent {doc P : PNode} {q : List Nat} {j : Nat}
    (hwf : Wf doc = true) (hq : nodeAt doc q = some P)
    (hPnt : isText P = false) (hj : j ≤ childCount P) :
    (resolve doc (posInNode doc (q ++ [j]))).parent = P := by
  rw [RPos.parent, RPos.node, rsnoc_depth hwf hq hPnt hj,
    rsnoc_entry_last hwf hq hPnt hj]

theorem rsnoc_index {doc P : PNode} {q : List Nat} {j : Nat}
    (hwf : Wf doc = true) (hq : nodeAt doc q = some P)
    (hPnt : isText P = false) (hj : j ≤ childCount P) :
    (resolve doc (posInNode doc (q ++ [j]))).index
      (resolve doc (posInNode doc (q ++ [j]))).depth = j := by
  rw [RPos.index, rsnoc_depth hwf hq hPnt hj, rsnoc_entry_last hwf hq hPnt hj]

theorem rsnoc_third {doc P : PNode} {q : List Nat} {j : Nat}
    (hwf : Wf doc = true) (hq : nodeAt doc q = some P)
    (hPnt : isText P = false) (hj : j ≤ childCount P) :
    (resolve doc (posInNode doc (q ++ [j]))).third
      (resolve doc (posInNode doc (q ++ [j]))).depth = posInNode doc (q ++ [j]) := by
  rw [RPos.third, rsnoc_depth hwf hq hPnt hj, rsnoc_entry_last hwf hq hPnt hj]

theorem rsnoc_textOffset {doc P : PNode} {q : List Nat} {j : Nat}
    (hwf : Wf doc = true) (hq : nodeAt doc q = some P)
    (hPnt : isText P = false) (hj : j ≤ childCount P) :
    (resolve doc (posInNode doc (q ++ [j]))).textOffset = 0 := by
  rw [RPos.textOffset, rsnoc_third hwf hq hPnt hj, resolve_pos, Nat.sub_self]

theorem rsnoc_indexAfterD {doc P : PNode} {q : List Nat} {j : Nat}
    (hwf : Wf doc = true) (hq : nodeAt doc q = some P)
    (hPnt : isText P = false) (hj : j ≤ childCount P) :
    (resolve doc (posInNode doc (q ++ [j]))).indexAfterD = j := by
  rw [RPos.indexAfterD, rsnoc_textOffset hwf hq hPnt hj,
    rsnoc_index hwf hq hPnt hj]
  simp

theorem rsnoc_before {doc P : PNode} {q : List Nat} {j : Nat}
    (hwf : Wf doc = true) (hq : nodeAt doc q = some P)
    (hPnt : isText P = false) (hj : j ≤ childCount P) (hqne : q ≠ []) :
    (resolve doc (posInNode doc (q ++ [j]))).beforeD = posInNode doc q := by
  have hb := rsnoc_boundary hq hPnt hj
  have hqpos : 0 < q.length := List.length_pos.mpr hqne
  have hd : q.length - 1 < (q ++ [j]).length := by simp; omega
  obtain ⟨X, hX⟩ := nodeAt_take_of_boundary (q.length - 1) hb hd
  rw [RPos.beforeD, RPos.third, rsnoc_depth hwf hq hPnt hj, RPos.entry,
    resolve_path hwf hb, entriesIn_getD 0 (q.length - 1) hb hd hX]
  have htk : (q ++ [j]).take (q.length - 1 + 1) = q := by
    rw [show q.length - 1 + 1 = q.length by omega, List.take_left]
  simp [htk]

theorem rsnoc_startD {doc P : PNode} {q : List Nat} {j : Nat}
    (hwf : Wf doc = true) (hq : nodeAt doc q = some P)
    (hPnt : isText P = false) (hj : j ≤ childCount P) :
    (resolve doc (posInNode doc (q ++ [j]))).start
      (resolve doc (posInNode doc (q ++ [j]))).depth =
      (if q = [] then 0 else posInNode doc q + 1) := by
  rw [RPos.start, rsnoc_depth hwf hq hPnt hj]
  cases hqe : decide (q = []) with
  | true =>
    have hqe' : q = [] := of_decide_eq_true hqe
    subst hqe'
    simp
  | false =>
    have hqe' : q ≠ [] := of_decide_eq_false hqe
    have hqpos : 0 < q.length := List.length_pos.mpr hqe'
    rw [if_neg (by omega : ¬q.length = 0), if_neg hqe']
    have := rsnoc_before hwf hq hPnt hj hqe'
    rw [RPos.beforeD, rsnoc_depth hwf hq hPnt hj] at this
    rw [this]

theorem rsnoc_posAtIndexD {doc P : PNode} {q : List Nat} {j m : Nat}
    (hwf : Wf doc = true) (hq : nodeAt doc q = some P)
    (hPnt : isText P = false) (hj : j ≤ childCount P) :
    (resolve doc (posInNode doc (q ++ [j]))).posAtIndexD m =
      posInNode doc (q ++ [m]) := by
  rw [RPos.posAtIndexD, rsnoc_startD hwf hq hPnt hj, rsnoc_parent hwf hq hPnt hj,
    posInNode_snoc q doc P m hq]

theorem rsnoc_node0 {doc P : PNode} {q : List Nat} {j : Nat}
    (hwf : Wf doc = true) (hq : nodeAt doc q = some P)
    (hPnt : isText P = false) (hj : j ≤ childCount P) :
    (resolve doc (posInNode doc (q ++ [j]))).node 0 = doc := by
  have hb := rsnoc_boundary hq hPnt hj
  have hd : 0 < (q ++ [j]).length := by simp
  have hX : nodeAt doc ((q ++ [j]).take 0) = some doc := by
    rw [List.take_zero, nodeAt_nil]
  rw [RPos.node, RPos.entry, resolve_path hwf hb, entriesIn_getD 0 0 hb hd hX]

theorem rsnoc_nodeAfter_some {doc P t : PNode} {q : List Nat} {j : Nat}
    (hwf : Wf doc = true) (hq : nodeAt doc q = some P)
    (hPnt : isText P = false) (ht : (kidsOf P)[j]? = some t) :
    (resolve doc (posInNode doc (q ++ [j]))).nodeAfter = some t := by
  have hj : j ≤ childCount P := by
    have := lt_length_of_getElem? ht
    simp [childCount]
    omega
  have hjlt : j < childCount P := by
    have := lt_length_of_getElem? ht
    simpa [childCount] using this
  rw [RPos.nodeAfter]
  simp only [rsnoc_parent hwf hq hPnt hj, rsnoc_index hwf hq hPnt hj,
    rsnoc_third hwf hq hPnt hj, resolve_pos]
  rw [if_neg (by omega : ¬j = childCount P)]
  simp [ht]

theorem rsnoc_nodeAfter_none {doc P : PNode} {q : List Nat}
    (hwf : Wf doc = true) (hq : nodeAt doc q = some P)
    (hPnt : isText P = false) :
    (resolve doc (posInNode doc (q ++ [childCount P]))).nodeAfter = none := by
  have hj : childCount P ≤ childCount P := Nat.le_refl _
  rw [RPos.nodeAfter]
  simp only [rsnoc_parent hwf hq hPnt hj, rsnoc_index hwf hq hPnt hj]
  simp

/-!
## Navigation primitives in path terms
-/

theorem isText_false_of_kid {P t : PNode} {j : Nat}
    (ht : (kidsOf P)[j]? = some t) : isText P = false := by
  cases P with
  | block ks => rfl
  | text len => simp [kidsOf] at ht

theorem childCount_le_of_kid {P t : PNode} {j : Nat}
    (ht : (kidsOf P)[j]? = some t) : j + 1 ≤ childCount P := by
  have := lt_length_of_getElem? ht
  simpa [childCount] using this

theorem nodeAt_snoc_some {doc P t : PNode} {q : List Nat} {j : Nat}
    (hq : nodeAt doc q = some P) (ht : (kidsOf P)[j]? = some t) :
    nodeAt doc (q ++ [j]) = some t := by
  rw [nodeAt_snoc, hq]
  exact ht

theorem posInNode_snoc_succ {doc P t : PNode} {q : List Nat} {j : Nat}
    (hq : nodeAt doc q = some P) (ht : (kidsOf P)[j]? = some t) :
    posInNode doc (q ++ [j]) + nodeSize t = posInNode doc (q ++ [j + 1]) := by
  rw [posInNode_snoc q doc P j hq, posInNode_snoc q doc P (j + 1) hq,
    sizesBefore_succ ht]
  omega

theorem wf_nodeAt :
    ∀ {q : List Nat} {doc P : PNode}, Wf doc = true → nodeAt doc q = some P →
      Wf P = true
  | [], doc, P, hwf, hq => by rw [nodeAt_nil] at hq; cases hq; exact hwf
  | i :: q, doc, P, hwf, hq => by
    cases hc : (kidsOf doc)[i]? with
    | none => rw [nodeAt_cons_none hc] at hq; exact absurd hq (by simp)
    | some c =>
      rw [nodeAt_cons_some hc] at hq
      exact wf_nodeAt (wf_kid hwf (List.getElem?_mem hc)) hq

theorem create_at_path {doc P t : PNode} {q : List Nat} {j : Nat}
    (hwf : Wf doc = true) (hq : nodeAt doc q = some P)
    (ht : (kidsOf P)[j]? = some t) :
    BlockPosition.create doc (posInNode doc (q ++ [j])) =
      some (bpOfPath doc (q ++ [j]) t) := by
  have hPnt := isText_false_of_kid ht
  have hj : j ≤ childCount P := by have := childCount_le_of_kid ht; omega
  simp only [BlockPosition.create, BlockPosition.ofFrom, resolveNode,
    rsnoc_nodeAfter_some hwf hq hPnt ht, rsnoc_node0 hwf hq hPnt hj,
    resolve_pos, bpOfPath]

theorem selectParent_at_top {doc t : PNode} {j : Nat}
    (hwf : Wf doc = true) (ht : (kidsOf doc)[j]? = some t) :
    selectParent doc (bpOfPath doc [j] t) = none := by
  have hq : nodeAt doc ([] : List Nat) = some doc := nodeAt_nil doc
  have hj : j ≤ childCount doc := by have := childCount_le_of_kid ht; omega
  have hd := rsnoc_depth hwf hq (isText_false_of_kid ht) hj
  rw [List.nil_append] at hd
  simp only [selectParent, bpOfPath, hd]
  simp

theorem selectParent_at {doc P' P t : PNode} {q' : List Nat} {i j : Nat}
    (hwf : Wf doc = true) (hq' : nodeAt doc q' = some P')
    (hP : (kidsOf P')[i]? = some P) (ht : (kidsOf P)[j]? = some t) :
    selectParent doc (bpOfPath doc ((q' ++ [i]) ++ [j]) t) =
      some (bpOfPath doc (q' ++ [i]) P) := by
  have hq : nodeAt doc (q' ++ [i]) = some P := nodeAt_snoc_some hq' hP
  have hPnt := isText_false_of_kid ht
  have hj : j ≤ childCount P := by have := childCount_le_of_kid ht; omega
  have hd := rsnoc_depth hwf hq hPnt hj
  have hbef := rsnoc_before hwf hq hPnt hj (by simp)
  simp only [selectParent, bpOfPath, hd, hbef]
  rw [if_neg (by simp)]
  exact create_at_path hwf hq' hP

theorem selectFirstChild_at_some {doc P t c : PNode} {q : List Nat} {j : Nat}
    (hwf : Wf doc = true) (hq : nodeAt doc q = some P)
    (ht : (kidsOf P)[j]? = some t) (hc : (kidsOf t)[0]? = some c)
    (hcb : isBlock c = true) :
    selectFirstChild doc (bpOfPath doc (q ++ [j]) t) =
      some (bpOfPath doc ((q ++ [j]) ++ [0]) c) := by
  have hPnt := isText_false_of_kid ht
  have hna := rsnoc_nodeAfter_some hwf hq hPnt ht
  have hfc : firstChild t = some c := by
    rw [firstChild, List.head?_eq_getElem?, hc]
  simp only [selectFirstChild, bpOfPath, hna, hfc, hcb, if_pos rfl, resolve_pos]
  have hpos : posInNode doc ((q ++ [j]) ++ [0]) = posInNode doc (q ++ [j]) + 1 := by
    rw [posInNode_snoc (q ++ [j]) doc t 0 (nodeAt_snoc_some hq ht)]
    simp [sizesBefore_zero]
  rw [← hpos]
  exact create_at_path hwf (nodeAt_snoc_some hq ht) hc

theorem selectFirstChild_at_none {doc P t : PNode} {q : List Nat} {j : Nat}
    (hwf : Wf doc = true) (hq : nodeAt doc q = some P)
    (ht : (kidsOf P)[j]? = some t) (hnb : hasBlockFirstChild t = false) :
    selectFirstChild doc (bpOfPath doc (q ++ [j]) t) = none := by
  have hPnt := isText_false_of_kid ht
  have hna := rsnoc_nodeAfter_some hwf hq hPnt ht
  simp only [selectFirstChild, bpOfPath, hna]
  rw [hasBlockFirstChild] at hnb
  cases hfc : firstChild t with
  | none => rfl
  | some c =>
    rw [hfc] at hnb
    have hnb' : isBlock c = false := hnb
    simp only [hnb', Bool.false_eq_true, if_false]

theorem selectNextSibling_at_some {doc P t t' : PNode} {q : List Nat} {j : Nat}
    (hwf : Wf doc = true) (hq : nodeAt doc q = some P)
    (ht : (kidsOf P)[j]? = some t) (ht' : (kidsOf P)[j + 1]? = some t') :
    selectNextSibling doc (bpOfPath doc (q ++ [j]) t) =
      some (bpOfPath doc (q ++ [j + 1]) t') := by
  have hPnt := isText_false_of_kid ht
  have hj1 : j + 1 ≤ childCount P := by have := childCount_le_of_kid ht'; omega
  have hlt : j + 1 < childCount P := by have := childCount_le_of_kid ht'; omega
  have hposeq := posInNode_snoc_succ hq ht
  simp only [selectNextSibling, bpOfPath, hposeq]
  rw [rsnoc_indexAfterD hwf hq hPnt hj1, rsnoc_parent hwf hq hPnt hj1,
    if_neg (by omega : ¬(j + 1 ≥ childCount P)),
    rsnoc_posAtIndexD hwf hq hPnt hj1]
  exact create_at_path hwf hq ht'

theorem selectNextSibling_at_none {doc P t : PNode} {q : List Nat} {j : Nat}
    (hwf : Wf doc = true) (hq : nodeAt doc q = some P)
    (ht : (kidsOf P)[j]? = some t) (hlast : j + 1 = childCount P) :
    selectNextSibling doc (bpOfPath doc (q ++ [j]) t) = none := by
  have hPnt := isText_false_of_kid ht
  have hj1 : j + 1 ≤ childCount P := by omega
  have hposeq := posInNode_snoc_succ hq ht
  simp only [selectNextSibling, bpOfPath, hposeq]
  rw [rsnoc_indexAfterD hwf hq hPnt hj1, rsnoc_parent hwf hq hPnt hj1,
    if_pos (by omega : j + 1 ≥ childCount P)]

theorem selectPrevSibling_at_zero {doc P t : PNode} {q : List Nat}
    (hwf : Wf doc = true) (hq : nodeAt doc q = some P)
    (ht : (kidsOf P)[0]? = some t) :
    selectPrevSibling doc (bpOfPath doc (q ++ [0]) t) = none := by
  have hPnt := isText_false_of_kid ht
  have hj : 0 ≤ childCount P := Nat.zero_le _
  simp only [selectPrevSibling, bpOfPath, rsnoc_indexAfterD hwf hq hPnt hj]
  rw [if_pos (by decide : ((0 : Nat) : Int) - 1 < 0)]

theorem selectPrevSibling_at_succ {doc P t t'' : PNode} {q : List Nat} {j : Nat}
    (hwf : Wf doc = true) (hq : nodeAt doc q = some P)
    (ht : (kidsOf P)[j + 1]? = some t) (ht'' : (kidsOf P)[j]? = some t'') :
    selectPrevSibling doc (bpOfPath doc (q ++ [j + 1]) t) =
      some (bpOfPath doc (q ++ [j]) t'') := by
  have hPnt := isText_false_of_kid ht
  have hj1 : j + 1 ≤ childCount P := by have := childCount_le_of_kid ht; omega
  simp only [selectPrevSibling, bpOfPath, rsnoc_indexAfterD hwf hq hPnt hj1]
  rw [if_neg (by omega : ¬((j + 1 : Nat) : Int) - 1 < 0)]
  have htn : (((j + 1 : Nat) : Int) - 1).toNat = j := by omega
  rw [htn, rsnoc_posAtIndexD hwf hq hPnt hj1]
  exact create_at_path hwf hq ht''

theorem nodeAt_snoc_inv {doc t : PNode} {q : List Nat} {j : Nat}
    (h : nodeAt doc (q ++ [j]) = some t) :
    ∃ P, nodeAt doc q = some P ∧ (kidsOf P)[j]? = some t := by
  rw [nodeAt_snoc] at h
  cases hq : nodeAt doc q with
  | none => rw [hq] at h; exact absurd h (by simp)
  | some P =>
    rw [hq] at h
    exact ⟨P, rfl, h⟩

/-- Claim C10: every `BlockPosition` the engine constructs at a before-node
offset satisfies `$to.pos = $from.pos + nodeSize` of the node starting at
`$from.pos` — the one-argument constructor computes `$to` through
`resolveNode` — and since well-formed nodes have positive size, every block
range is non-empty. -/
theorem c10_block_range (doc t : PNode) (p : List Nat) (A : BlockPosition)
    (hwf : Wf doc = true) (hp : p ≠ []) (ht : nodeAt doc p = some t)
    (hA : BlockPosition.create doc (posInNode doc p) = some A) :
    A.bTo.pos = A.bFrom.pos + nodeSize t ∧ A.bFrom.pos < A.bTo.pos := by
  obtain ⟨q, j, rfl⟩ : ∃ q j, p = q ++ [j] :=
    ⟨p.dropLast, p.getLast hp, (List.dropLast_append_getLast hp).symm⟩
  obtain ⟨P, hq, hj⟩ := nodeAt_snoc_inv ht
  rw [create_at_path hwf hq hj] at hA
  cases hA
  have hsz := nodeSize_pos (wf_nodeAt hwf ht)
  refine ⟨?_, ?_⟩
  · simp [bpOfPath, resolve_pos]
  · simp only [bpOfPath, resolve_pos]
    omega

/-- Claim C10, witness: the first list item of the example document spans
exactly its node size (24 positions, 10 to 34). -/
theorem c10_block_range_witness :
    egLi1.bTo.pos = egLi1.bFrom.pos + nodeSize egLi1Node ∧
      egLi1.bFrom.pos < egLi1.bTo.pos :=
  c10_block_range egDoc egLi1Node [2, 0] egLi1 (by decide) (by decide)
    (by decide) (by decide)

/-- Claim C8: `selectParent` moves to the immediate containing block and
fails exactly when the position's immediate container is the document root
(resolution depth 0); and at the root's first child `selectPrevSibling`
returns absent. -/
theorem c8_parent_boundaries (doc P t : PNode) (q : List Nat) (j : Nat)
    (A : BlockPosition)
    (hwf : Wf doc = true) (hq : nodeAt doc q = some P)
    (ht : (kidsOf P)[j]? = some t)
    (hA : BlockPosition.create doc (posInNode doc (q ++ [j])) = some A) :
    (selectParent doc A = none ↔ q = []) ∧
    (q ≠ [] → selectParent doc A = BlockPosition.create doc (posInNode doc q)) ∧
    (∀ t0 A0, (kidsOf doc)[0]? = some t0 →
      BlockPosition.create doc (posInNode doc [0]) = some A0 →
      selectPrevSibling doc A0 = none) := by
  rw [create_at_path hwf hq ht] at hA
  cases hA
  have hpar : q ≠ [] → selectParent doc (bpOfPath doc (q ++ [j]) t) =
      BlockPosition.create doc (posInNode doc q) := by
    intro hqne
    obtain ⟨q', i, rfl⟩ : ∃ q' i, q = q' ++ [i] :=
      ⟨q.dropLast, q.getLast hqne, (List.dropLast_append_getLast hqne).symm⟩
    obtain ⟨P', hq', hP⟩ := nodeAt_snoc_inv hq
    rw [selectParent_at hwf hq' hP ht, create_at_path hwf hq' hP]
  refine ⟨⟨?_, ?_⟩, hpar, ?_⟩
  · intro hnone
    by_contra hqne
    rw [hpar hqne] at hnone
    obtain ⟨q', i, hqeq⟩ : ∃ q' i, q = q' ++ [i] :=
      ⟨q.dropLast, q.getLast hqne, (List.dropLast_append_getLast hqne).symm⟩
    subst hqeq
    obtain ⟨P', hq', hP⟩ := nodeAt_snoc_inv hq
    rw [create_at_path hwf hq' hP] at hnone
    exact absurd hnone (by simp)
  · intro hqe
    subst hqe
    rw [nodeAt_nil] at hq
    cases hq
    have := selectParent_at_top hwf ht
    rwa [List.nil_append]
  · intro t0 A0 ht0 hA0
    rw [show ([0] : List Nat) = [] ++ [0] by simp] at hA0
    rw [create_at_path hwf (nodeAt_nil doc) ht0] at hA0
    cases hA0
    exact selectPrevSibling_at_zero hwf (nodeAt_nil doc) ht0

/-- Claim C8, witness: for the first list item (inside the bullet list) of
the example document, `selectParent` does not fail and returns the list;
instantiated with the document's first child, `selectPrevSibling` fails. -/
theorem c8_parent_boundaries_witness :
    selectParent egDoc egLi1 = BlockPosition.create egDoc (posInNode egDoc [2]) :=
  (c8_parent_boundaries egDoc egUlNode egLi1Node [2] 0 egLi1 (by decide)
    (by decide) (by decide) (by decide)).2.1 (by decide)

theorem mkBlockSelection_head (x h : BlockPosition) :
    (mkBlockSelection x (some h)).head = h := by
  rw [mkBlockSelection]
  split <;> rfl

theorem mkBlockSelection_anchor (x h : BlockPosition) :
    (mkBlockSelection x (some h)).anchor = h ∨
      (mkBlockSelection x (some h)).anchor = x := by
  rw [mkBlockSelection]
  split
  · exact Or.inl rfl
  · exact Or.inr rfl

/-- Claim C3, amended: when the selection's head has a next sibling,
`expandNext` followed by `expandPrev` restores the head (whatever the
anchor is); the round trip only breaks when `expandNext` has to climb to a
parent's sibling, as the counterexample shows. -/
theorem c3_amended (doc P t t' : PNode) (q : List Nat) (j : Nat)
    (anchor A : BlockPosition)
    (hwf : Wf doc = true) (hq : nodeAt doc q = some P)
    (ht : (kidsOf P)[j]? = some t) (ht' : (kidsOf P)[j + 1]? = some t')
    (hA : BlockPosition.create doc (posInNode doc (q ++ [j])) = some A) :
    ∃ s1 s2, expandNext doc ⟨anchor, A⟩ = some s1 ∧
      expandPrev doc s1 = some s2 ∧ s2.head = A := by
  rw [create_at_path hwf hq ht] at hA
  cases hA
  have hns := selectNextSibling_at_some hwf hq ht ht'
  have hps := selectPrevSibling_at_succ hwf hq ht' ht
  refine ⟨mkBlockSelection anchor (some (bpOfPath doc (q ++ [j + 1]) t')),
    mkBlockSelection
      (mkBlockSelection anchor (some (bpOfPath doc (q ++ [j + 1]) t'))).anchor
      (some (bpOfPath doc (q ++ [j]) t)), ?_, ?_, ?_⟩
  · simp only [expandNext, hns]
  · simp only [expandPrev, mkBlockSelection_head, hps]
  · rw [mkBlockSelection_head]

/-- Claim C3, witness for the amended theorem: from the first list item of
`egDoc3` (which has a next sibling), expanding forward then backward
restores the head. -/
theorem c3_amended_witness :
    ∃ s1 s2,
      expandNext egDoc3 ⟨egBpa, (BlockPosition.create egDoc3 5).getD dfltBP⟩ =
        some s1 ∧
      expandPrev egDoc3 s1 = some s2 ∧
      s2.head = (BlockPosition.create egDoc3 5).getD dfltBP :=
  c3_amended egDoc3 egUl3Node egLiNode egLiNode [1] 0 egBpa
    ((BlockPosition.create egDoc3 5).getD dfltBP)
    (by decide) (by decide) (by decide) (by decide) (by decide)

/-!
## Homogeneity, subtree sizes, and general path appends
-/

theorem isBlock_of_kids_nonempty {n k : PNode} {x : Nat}
    (h : (kidsOf n)[x]? = some k) : isBlock n = true := by
  cases n with
  | block ks => rfl
  | text len => simp [kidsOf] at h

theorem homog_all_block {n k : PNode} (hwf : Wf n = true)
    (hm : k ∈ kidsOf n) (hb : isBlock k = true) :
    ∀ k' ∈ kidsOf n, isBlock k' = true := by
  cases n with
  | text len => simp [kidsOf] at hm
  | block ks =>
    have hh := (wf_block hwf).1
    rw [childrenHomog, Bool.or_eq_true] at hh
    rcases hh with hh | hh
    · intro k' hk'
      exact List.all_eq_true.mp hh k' (by simpa [kidsOf] using hk')
    · exfalso
      have := List.all_eq_true.mp hh k (by simpa [kidsOf] using hm)
      rw [hb] at this
      exact absurd this (by simp)

theorem hasBlockFirstChild_of_kid {n k : PNode} {x : Nat}
    (hwf : Wf n = true) (hk : (kidsOf n)[x]? = some k)
    (hb : isBlock k = true) : hasBlockFirstChild n = true := by
  have hlen := lt_length_of_getElem? hk
  obtain ⟨k0, hk0⟩ := @getElem?_of_lt (kidsOf n) 0 (by omega)
  have hk0b := homog_all_block hwf (List.getElem?_mem hk) hb k0 (List.getElem?_mem hk0)
  rw [hasBlockFirstChild, firstChild, List.head?_eq_getElem?, hk0]
  exact hk0b

theorem hasBlockFirstChild_elim {t : PNode} (h : hasBlockFirstChild t = true) :
    ∃ c, (kidsOf t)[0]? = some c ∧ isBlock c = true := by
  rw [hasBlockFirstChild] at h
  cases hfc : firstChild t with
  | none => rw [hfc] at h; exact absurd h (by simp)
  | some c =>
    rw [hfc] at h
    have hcb : isBlock c = true := h
    rw [firstChild, List.head?_eq_getElem?] at hfc
    exact ⟨c, hfc, hcb⟩

theorem totalSize_ge_length {ks : List PNode}
    (hpos : ∀ k ∈ ks, 1 ≤ nodeSize k) : ks.length ≤ totalSize ks := by
  induction ks with
  | nil => simp [totalSize]
  | cons k0 ks ih =>
    have h0 := hpos k0 (by simp)
    have := ih (fun k hk => hpos k (by simp [hk]))
    simp only [List.length_cons, totalSize]
    omega

theorem childCount_lt_nodeSize {n : PNode} (hwf : Wf n = true)
    (hb : isBlock n = true) : childCount n < nodeSize n := by
  cases n with
  | text len => simp [isBlock] at hb
  | block ks =>
    have := @totalSize_ge_length ks
      (fun k hk => kid_size_pos hwf (by simpa [kidsOf] using hk))
    simp only [childCount, kidsOf, nodeSize]
    omega

theorem nodeSize_nodeAt_le :
    ∀ {p : List Nat} {doc t : PNode}, Wf doc = true → nodeAt doc p = some t →
      nodeSize t ≤ nodeSize doc
  | [], doc, t, _, h => by rw [nodeAt_nil] at h; cases h; exact Nat.le_refl _
  | i :: p, doc, t, hwf, h => by
    cases hc : (kidsOf doc)[i]? with
    | none => rw [nodeAt_cons_none hc] at h; exact absurd h (by simp)
    | some c =>
      rw [nodeAt_cons_some hc] at h
      have h1 := nodeSize_nodeAt_le (wf_kid hwf (List.getElem?_mem hc)) h
      have h2 := totalSize_ge_of_mem (List.getElem?_mem hc)
      have h3 : nodeSize doc = 2 + totalSize (kidsOf doc) := by
        cases doc with
        | text len => simp [kidsOf] at hc
        | block ks => simp [nodeSize, kidsOf]
      omega

theorem nodeAt_append :
    ∀ (r : List Nat) (doc : PNode) (ext : List Nat),
      nodeAt doc (r ++ ext) = (nodeAt doc r).bind (fun X => nodeAt X ext)
  | [], doc, ext => by simp [nodeAt_nil]
  | i :: r, doc, ext => by
    rw [List.cons_append]
    cases hc : (kidsOf doc)[i]? with
    | none => rw [nodeAt_cons_none hc, nodeAt_cons_none hc]; rfl
    | some c =>
      rw [nodeAt_cons_some hc, nodeAt_cons_some hc]
      exact nodeAt_append r c ext

theorem posInNode_append :
    ∀ (r : List Nat) (doc X : PNode) (ext : List Nat), nodeAt doc r = some X →
      ext ≠ [] →
      posInNode doc (r ++ ext) =
        (if r = [] then 0 else posInNode doc r + 1) + posInNode X ext
  | [], doc, X, ext, hr, hext => by
    rw [nodeAt_nil] at hr
    cases hr
    simp
  | i :: r, doc, X, ext, hr, hext => by
    cases hc : (kidsOf doc)[i]? with
    | none => rw [nodeAt_cons_none hc] at hr; exact absurd hr (by simp)
    | some c =>
      rw [nodeAt_cons_some hc] at hr
      have ih := posInNode_append r c X ext hr hext
      rw [List.cons_append, posInNode_cons (by simp [hext]) hc, ih]
      cases hre : decide (r = []) with
      | true =>
        have hre' : r = [] := of_decide_eq_true hre
        subst hre'
        rw [nodeAt_nil] at hr
        cases hr
        simp [posInNode_single]
      | false =>
        have hre' : r ≠ [] := of_decide_eq_false hre
        rw [if_neg hre', if_neg (by simp : ¬(i :: r : List Nat) = []),
          posInNode_cons hre' hc]
        omega

theorem posInNode_ext_lt {doc X : PNode} {r ext : List Nat}
    (hr : nodeAt doc r = some X) (hX : ∃ e, nodeAt X ext = some e)
    (hext : ext ≠ []) (hrne : r ≠ []) :
    posInNode doc (r ++ ext) < posInNode doc r + nodeSize X := by
  obtain ⟨e, he⟩ := hX
  have hb : boundaryIn X ext = true := boundaryIn_of_nodeAt he hext
  have hle := posInNode_le_content hb
  have hXb : nodeSize X = 2 + totalSize (kidsOf X) := by
    cases ext with
    | nil => exact absurd rfl hext
    | cons x ext' =>
      cases X with
      | text len =>
        rw [nodeAt_cons] at he
        simp [kidsOf] at he
      | block ks => simp [nodeSize, kidsOf]
  rw [posInNode_append r doc X ext hr hext, if_neg hrne]
  omega

/-!
## The sibling and descent loops in path terms
-/

theorem lastSiblingGo_at :
    ∀ (fuel : Nat) {doc P t tl : PNode} {q : List Nat} {j : Nat},
      Wf doc = true → nodeAt doc q = some P → (kidsOf P)[j]? = some t →
      (kidsOf P)[childCount P - 1]? = some tl →
      childCount P - 1 - j ≤ fuel →
      lastSiblingGo doc fuel (bpOfPath doc (q ++ [j]) t) =
        bpOfPath doc (q ++ [childCount P - 1]) tl
  | 0, doc, P, t, tl, q, j, hwf, hq, ht, htl, hfuel => by
    have hj := childCount_le_of_kid ht
    have hjeq : j = childCount P - 1 := by omega
    subst hjeq
    rw [ht] at htl
    cases htl
    rfl
  | fuel + 1, doc, P, t, tl, q, j, hwf, hq, ht, htl, hfuel => by
    have hj := childCount_le_of_kid ht
    rcases Nat.lt_or_ge (j + 1) (childCount P) with hlt | hge
    · obtain ⟨t1, ht1⟩ := @getElem?_of_lt (kidsOf P) (j + 1)
        (by simpa [childCount] using hlt)
      rw [lastSiblingGo, selectNextSibling_at_some hwf hq ht ht1]
      exact lastSiblingGo_at fuel hwf hq ht1 htl (by omega)
    · have hjeq : j = childCount P - 1 := by omega
      rw [lastSiblingGo, selectNextSibling_at_none hwf hq ht (by omega)]
      subst hjeq
      rw [ht] at htl
      cases htl
      rfl

theorem selectLastChild_at_some {doc P t tl : PNode} {q : List Nat} {j : Nat}
    (hwf : Wf doc = true) (hq : nodeAt doc q = some P)
    (ht : (kidsOf P)[j]? = some t) (hbf : hasBlockFirstChild t = true)
    (htl : (kidsOf t)[childCount t - 1]? = some tl) :
    selectLastChild doc (bpOfPath doc (q ++ [j]) t) =
      some (bpOfPath doc ((q ++ [j]) ++ [childCount t - 1]) tl) := by
  obtain ⟨c0, hc0, hc0b⟩ := hasBlockFirstChild_elim hbf
  have hqt : nodeAt doc (q ++ [j]) = some t := nodeAt_snoc_some hq ht
  have hwft : Wf t = true := wf_nodeAt hwf hqt
  have htblock : isBlock t = true := isBlock_of_kids_nonempty hc0
  have hfuel : childCount t - 1 - 0 ≤ nodeSize doc := by
    have h1 := childCount_lt_nodeSize hwft htblock
    have h2 := nodeSize_nodeAt_le hwf hqt
    omega
  rw [selectLastChild, selectFirstChild_at_some hwf hq ht hc0 hc0b]
  show some (lastSiblingGo doc (nodeSize doc) (bpOfPath doc ((q ++ [j]) ++ [0]) c0)) = _
  rw [lastSiblingGo_at (nodeSize doc) hwf hqt hc0 htl hfuel]

theorem selectLastChild_at_none {doc P t : PNode} {q : List Nat} {j : Nat}
    (hwf : Wf doc = true) (hq : nodeAt doc q = some P)
    (ht : (kidsOf P)[j]? = some t) (hnb : hasBlockFirstChild t = false) :
    selectLastChild doc (bpOfPath doc (q ++ [j]) t) = none := by
  rw [selectLastChild, selectFirstChild_at_none hwf hq ht hnb]

/-!
## The upward sibling search and last-child chains
-/

theorem siblingUp_nil (doc : PNode) : siblingUp doc [] = none := rfl

theorem siblingUp_snoc {doc P : PNode} {q : List Nat} (i : Nat)
    (hq : nodeAt doc q = some P) :
    siblingUp doc (q ++ [i]) =
      if i + 1 < childCount P then some (q ++ [i + 1]) else siblingUp doc q := by
  have h1 : (q ++ [i]).reverse = i :: q.reverse := by simp
  simp only [siblingUp, h1, siblingUpRev, List.reverse_reverse, hq]

theorem lastChain_snoc :
    ∀ {tail : List Nat} {n S e : PNode} {x : Nat},
      IsLastChain n tail S → (kidsOf S)[x]? = some e → x = childCount S - 1 →
      IsLastChain n (tail ++ [x]) e
  | [], n, S, e, x, hch, hx, hxe => by
    have hns : n = S := hch
    subst hns
    exact ⟨hxe, e, hx, rfl⟩
  | y :: tail, n, S, e, x, hch, hx, hxe => by
    obtain ⟨hy, c, hc, hch'⟩ := hch
    exact ⟨hy, c, hc, lastChain_snoc hch' hx hxe⟩

theorem isBlock_of_lastChain :
    ∀ {tail : List Nat} {n e : PNode}, IsLastChain n tail e →
      isBlock e = true → isBlock n = true
  | [], n, e, hch, hb => by
    have hne : n = e := hch
    subst hne
    exact hb
  | x :: tail, n, e, hch, _ => by
    obtain ⟨_, c, hc, _⟩ := hch
    exact isBlock_of_kids_nonempty hc

theorem deepDesc_of_lastChain :
    ∀ {tail : List Nat} {n e : PNode}, Wf n = true → IsLastChain n tail e →
      isBlock e = true → hasBlockFirstChild e = false →
      deepDesc n = tail ∧ deepDescNode n = e
  | [], n, e, hwf, hch, hb, hnb => by
    have hne : n = e := hch
    subst hne
    constructor
    · rw [deepDesc, if_neg (by rw [hnb]; simp)]
    · rw [deepDescNode, if_neg (by rw [hnb]; simp)]
  | x :: tail, n, e, hwf, hch, hb, hnb => by
    obtain ⟨hx, c, hc, hch'⟩ := hch
    have hcb := isBlock_of_lastChain hch' hb
    have hbf := hasBlockFirstChild_of_kid hwf hc hcb
    have hwfc := wf_kid hwf (List.getElem?_mem hc)
    obtain ⟨ihd, ihn⟩ := deepDesc_of_lastChain hwfc hch' hb hnb
    subst hx
    constructor
    · rw [deepDesc, if_pos hbf]
      split
      · next l hl =>
          rw [hc] at hl
          cases hl
          rw [ihd]
      · next hl =>
          rw [hc] at hl
          exact absurd hl (by simp)
    · rw [deepDescNode, if_pos hbf]
      split
      · next l hl =>
          rw [hc] at hl
          cases hl
          rw [ihn]
      · next hl =>
          rw [hc] at hl
          exact absurd hl (by simp)

theorem siblingUp_trace {doc : PNode} :
    ∀ (q : List Nat) (P : PNode) (p' : List Nat),
      nodeAt doc q = some P → siblingUp doc q = some p' →
      ∃ s i tail S sib sib',
        q = (s ++ [i]) ++ tail ∧ p' = s ++ [i + 1] ∧
        nodeAt doc s = some S ∧ (kidsOf S)[i]? = some sib ∧
        (kidsOf S)[i + 1]? = some sib' ∧ IsLastChain sib tail P := by
  intro q
  induction q using List.reverseRecOn with
  | nil =>
    intro P p' _ hs
    rw [siblingUp_nil] at hs
    exact absurd hs (by simp)
  | append_singleton q'' i'' ih =>
    intro P p' hq hs
    obtain ⟨S'', hq'', hP⟩ := nodeAt_snoc_inv hq
    rw [siblingUp_snoc i'' hq''] at hs
    by_cases hlt : i'' + 1 < childCount S''
    · rw [if_pos hlt] at hs
      injection hs with hs
      obtain ⟨sib', hsib'⟩ := @getElem?_of_lt (kidsOf S'') (i'' + 1)
        (by simpa [childCount] using hlt)
      exact ⟨q'', i'', [], S'', P, sib', by simp, hs.symm, hq'', hP, hsib', rfl⟩
    · rw [if_neg hlt] at hs
      obtain ⟨s, i, tail, S, sib, sib', hqeq, hp', hsS, hsib, hsib', hch⟩ :=
        ih S'' p' hq'' hs
      have hi'' : i'' = childCount S'' - 1 := by
        have := childCount_le_of_kid hP
        omega
      refine ⟨s, i, tail ++ [i''], S, sib, sib', ?_, hp', hsS, hsib, hsib',
        lastChain_snoc hch hP hi''⟩
      rw [hqeq]
      simp

theorem siblingUp_none_chain {doc : PNode} :
    ∀ (q : List Nat) (P : PNode), nodeAt doc q = some P →
      siblingUp doc q = none → IsLastChain doc q P := by
  intro q
  induction q using List.reverseRecOn with
  | nil =>
    intro P hq _
    rw [nodeAt_nil] at hq
    cases hq
    rfl
  | append_singleton q'' i'' ih =>
    intro P hq hs
    obtain ⟨S'', hq'', hP⟩ := nodeAt_snoc_inv hq
    rw [siblingUp_snoc i'' hq''] at hs
    by_cases hlt : i'' + 1 < childCount S''
    · rw [if_pos hlt] at hs
      exact absurd hs (by simp)
    · rw [if_neg hlt] at hs
      have hch := ih S'' hq'' hs
      exact lastChain_snoc hch hP (by have := childCount_le_of_kid hP; omega)

theorem deepDesc_leaf {n : PNode} (hnb : hasBlockFirstChild n = false) :
    deepDesc n = [] ∧ deepDescNode n = n := by
  constructor
  · rw [deepDesc, if_neg (by rw [hnb]; simp)]
  · rw [deepDescNode, if_neg (by rw [hnb]; simp)]

theorem deepDesc_step {n l : PNode} (hbf : hasBlockFirstChild n = true)
    (hl : (kidsOf n)[childCount n - 1]? = some l) :
    deepDesc n = (childCount n - 1) :: deepDesc l ∧
      deepDescNode n = deepDescNode l := by
  constructor
  · rw [deepDesc, if_pos hbf]
    split
    · next l' hl' =>
        rw [hl] at hl'
        cases hl'
        rfl
    · next hl' =>
        rw [hl] at hl'
        exact absurd hl' (by simp)
  · rw [deepDescNode, if_pos hbf]
    split
    · next l' hl' =>
        rw [hl] at hl'
        cases hl'
        rfl
    · next hl' =>
        rw [hl] at hl'
        exact absurd hl' (by simp)

theorem go_siblingUp {doc : PNode} (hwf : Wf doc = true) :
    ∀ (fuel : Nat) (q : List Nat) {P t : PNode} {j : Nat},
      nodeAt doc q = some P → (kidsOf P)[j]? = some t →
      q.length + 1 ≤ fuel →
      selectNextParentSublingGo doc fuel (bpOfPath doc (q ++ [j]) t) =
        (siblingUp doc q).bind
          (fun p' => BlockPosition.create doc (posInNode doc p')) := by
  intro fuel
  induction fuel with
  | zero =>
    intro q P t j _ _ hfuel
    omega
  | succ f ih =>
    intro q P t j hq ht hfuel
    rcases List.eq_nil_or_concat q with rfl | ⟨q', i', rfl⟩
    · rw [nodeAt_nil] at hq
      cases hq
      have hsp := selectParent_at_top hwf ht
      simp only [List.nil_append] at hsp ⊢
      simp only [selectNextParentSublingGo, hsp, siblingUp_nil, Option.none_bind]
    · simp only [List.concat_eq_append] at hq hfuel ⊢
      obtain ⟨P'', hq', hP⟩ := nodeAt_snoc_inv hq
      simp only [selectNextParentSublingGo, selectParent_at hwf hq' hP ht]
      cases hnext : (kidsOf P'')[i' + 1]? with
      | some sib =>
        have hlt : i' + 1 < childCount P'' := by
          have := childCount_le_of_kid hnext
          omega
        simp only [selectNextSibling_at_some hwf hq' hP hnext]
        rw [siblingUp_snoc i' hq', if_pos hlt]
        exact (create_at_path hwf hq' hnext).symm
      | none =>
        have hge : childCount P'' ≤ i' + 1 := by
          have := List.getElem?_eq_none_iff.mp hnext
          simpa [childCount] using this
        have hlast : i' + 1 = childCount P'' := by
          have := childCount_le_of_kid hP
          omega
        simp only [selectNextSibling_at_none hwf hq' hP hlast]
        rw [siblingUp_snoc i' hq', if_neg (by omega)]
        exact ih q' hq' hP (by simpa using Nat.le_of_succ_le_succ (by simpa using hfuel))

theorem deepLastGo_at :
    ∀ (fuel : Nat) {doc P t : PNode} {q : List Nat} {j : Nat},
      Wf doc = true → nodeAt doc q = some P → (kidsOf P)[j]? = some t →
      nodeSize t ≤ fuel →
      deepLastGo doc fuel (bpOfPath doc (q ++ [j]) t) =
        bpOfPath doc ((q ++ [j]) ++ deepDesc t) (deepDescNode t)
  | 0, doc, P, t, q, j, hwf, hq, ht, hfuel => by
    exfalso
    have := nodeSize_pos (wf_nodeAt hwf (nodeAt_snoc_some hq ht))
    omega
  | fuel + 1, doc, P, t, q, j, hwf, hq, ht, hfuel => by
    have hqt : nodeAt doc (q ++ [j]) = some t := nodeAt_snoc_some hq ht
    have hwft : Wf t = true := wf_nodeAt hwf hqt
    cases hbf : hasBlockFirstChild t with
    | false =>
      obtain ⟨hd, hn⟩ := deepDesc_leaf hbf
      rw [deepLastGo, selectLastChild_at_none hwf hq ht hbf, hd, hn,
        List.append_nil]
    | true =>
      obtain ⟨c0, hc0, _⟩ := hasBlockFirstChild_elim hbf
      have hccpos : 0 < childCount t := by
        have := lt_length_of_getElem? hc0
        simp [childCount]
        omega
      obtain ⟨tl, htl⟩ := @getElem?_of_lt (kidsOf t)
        (childCount t - 1) (by simp only [childCount] at hccpos ⊢; omega)
      obtain ⟨hd, hn⟩ := deepDesc_step hbf htl
      have htsz : nodeSize t = 2 + totalSize (kidsOf t) := by
        cases t with
        | text len => simp [kidsOf] at hc0
        | block ks => simp [nodeSize, kidsOf]
      have htlsz : nodeSize tl ≤ fuel := by
        have := totalSize_ge_of_mem (List.getElem?_mem htl)
        omega
      rw [deepLastGo, selectLastChild_at_some hwf hq ht hbf htl]
      show deepLastGo doc fuel (bpOfPath doc ((q ++ [j]) ++ [childCount t - 1]) tl) = _
      rw [deepLastGo_at fuel hwf hqt htl htlsz, hd, hn]
      rw [List.append_assoc (q ++ [j]) [childCount t - 1] (deepDesc tl)]
      rfl

theorem selectPrev_at_succ {doc P t t'' : PNode} {q : List Nat} {j : Nat}
    (hwf : Wf doc = true) (hq : nodeAt doc q = some P)
    (ht : (kidsOf P)[j + 1]? = some t) (ht'' : (kidsOf P)[j]? = some t'') :
    selectPrev doc (bpOfPath doc (q ++ [j + 1]) t) =
      some (bpOfPath doc ((q ++ [j]) ++ deepDesc t'') (deepDescNode t'')) := by
  have hfuel : nodeSize t'' ≤ nodeSize doc :=
    nodeSize_nodeAt_le hwf (nodeAt_snoc_some hq ht'')
  simp only [selectPrev, selectPrevSibling_at_succ hwf hq ht ht'']
  rw [deepLastGo_at (nodeSize doc) hwf hq ht'' hfuel]

theorem selectPrev_at_zero_top {doc t : PNode} {j : Nat}
    (hwf : Wf doc = true) (ht : (kidsOf doc)[0]? = some t) :
    selectPrev doc (bpOfPath doc [0] t) = none := by
  have hq : nodeAt doc ([] : List Nat) = some doc := nodeAt_nil doc
  have h1 := selectPrevSibling_at_zero hwf hq ht
  have h2 := selectParent_at_top hwf ht
  rw [List.nil_append] at h1
  simp only [selectPrev, h1, h2]

theorem selectPrev_at_zero_nested {doc P' P t : PNode} {q' : List Nat} {i : Nat}
    (hwf : Wf doc = true) (hq' : nodeAt doc q' = some P')
    (hP : (kidsOf P')[i]? = some P) (ht : (kidsOf P)[0]? = some t) :
    selectPrev doc (bpOfPath doc ((q' ++ [i]) ++ [0]) t) =
      some (bpOfPath doc (q' ++ [i]) P) := by
  have hq : nodeAt doc (q' ++ [i]) = some P := nodeAt_snoc_some hq' hP
  simp only [selectPrev, selectPrevSibling_at_zero hwf hq ht,
    selectParent_at hwf hq' hP ht]

theorem selectNext_at_firstChild {doc P t c0 : PNode} {q : List Nat} {j : Nat}
    (hwf : Wf doc = true) (hq : nodeAt doc q = some P)
    (ht : (kidsOf P)[j]? = some t) (hc0 : (kidsOf t)[0]? = some c0)
    (hc0b : isBlock c0 = true) :
    selectNext doc (bpOfPath doc (q ++ [j]) t) =
      some (bpOfPath doc ((q ++ [j]) ++ [0]) c0) := by
  simp only [selectNext, selectFirstChild_at_some hwf hq ht hc0 hc0b]

theorem selectNext_at_sibling {doc P t t' : PNode} {q : List Nat} {j : Nat}
    (hwf : Wf doc = true) (hq : nodeAt doc q = some P)
    (ht : (kidsOf P)[j]? = some t) (hnb : hasBlockFirstChild t = false)
    (ht' : (kidsOf P)[j + 1]? = some t') :
    selectNext doc (bpOfPath doc (q ++ [j]) t) =
      some (bpOfPath doc (q ++ [j + 1]) t') := by
  simp only [selectNext, selectFirstChild_at_none hwf hq ht hnb,
    selectNextSibling_at_some hwf hq ht ht']

theorem selectNext_at_up {doc P t : PNode} {q : List Nat} {j : Nat}
    (hwf : Wf doc = true) (hq : nodeAt doc q = some P)
    (ht : (kidsOf P)[j]? = some t) (hnb : hasBlockFirstChild t = false)
    (hnone : (kidsOf P)[j + 1]? = none) :
    selectNext doc (bpOfPath doc (q ++ [j]) t) =
      (siblingUp doc q).bind
        (fun p' => BlockPosition.create doc (posInNode doc p')) := by
  have hlast : j + 1 = childCount P := by
    have h1 := List.getElem?_eq_none_iff.mp hnone
    have h2 := childCount_le_of_kid ht
    simp only [childCount] at h2 ⊢
    omega
  have hj : j ≤ childCount P := by omega
  simp only [selectNext, selectFirstChild_at_none hwf hq ht hnb,
    selectNextSibling_at_none hwf hq ht hlast]
  rw [selectNextParentSubling,
    show (bpOfPath doc (q ++ [j]) t).bFrom.depth = q.length from
      rsnoc_depth hwf hq (isText_false_of_kid ht) hj]
  exact go_siblingUp hwf (q.length + 1) q hq ht (Nat.le_refl _)

/-- Claim C1: for every well-formed document and adjacent pre-order block
nodes — `B = selectNext(A)` — `selectPrev` at `B` returns exactly `A`. -/
theorem c1_selectPrev_inverse (doc t : PNode) (p : List Nat)
    (A B : BlockPosition)
    (hwf : Wf doc = true) (hp : p ≠ []) (ht : nodeAt doc p = some t)
    (htb : isBlock t = true)
    (hA : BlockPosition.create doc (posInNode doc p) = some A)
    (hB : selectNext doc A = some B) :
    selectPrev doc B = some A := by
  obtain ⟨q, j, rfl⟩ : ∃ q j, p = q ++ [j] :=
    ⟨p.dropLast, p.getLast hp, (List.dropLast_append_getLast hp).symm⟩
  obtain ⟨P, hq, hj⟩ := nodeAt_snoc_inv ht
  rw [create_at_path hwf hq hj] at hA
  cases hA
  cases hbf : hasBlockFirstChild t with
  | true =>
    obtain ⟨c0, hc0, hc0b⟩ := hasBlockFirstChild_elim hbf
    rw [selectNext_at_firstChild hwf hq hj hc0 hc0b] at hB
    cases hB
    exact selectPrev_at_zero_nested hwf hq hj hc0
  | false =>
    cases hnext : (kidsOf P)[j + 1]? with
    | some t' =>
      rw [selectNext_at_sibling hwf hq hj hbf hnext] at hB
      cases hB
      rw [selectPrev_at_succ hwf hq hnext hj]
      obtain ⟨hd, hn⟩ := deepDesc_leaf hbf
      rw [hd, hn, List.append_nil]
    | none =>
      rw [selectNext_at_up hwf hq hj hbf hnext] at hB
      cases hs : siblingUp doc q with
      | none =>
        rw [hs] at hB
        exact absurd hB (by simp)
      | some p' =>
        rw [hs] at hB
        have hB' : BlockPosition.create doc (posInNode doc p') = some B := hB
        obtain ⟨s, i, tail, S, sib, sib', hqeq, hp'eq, hsS, hsib, hsib', hch⟩ :=
          siblingUp_trace q P p' hq hs
        subst hp'eq
        rw [create_at_path hwf hsS hsib'] at hB'
        cases hB'
        rw [selectPrev_at_succ hwf hsS hsib' hsib]
        have hlast : j = childCount P - 1 := by
          have h1 := List.getElem?_eq_none_iff.mp hnext
          have h2 := childCount_le_of_kid hj
          simp only [childCount] at h1 h2 ⊢
          omega
        have hch2 : IsLastChain sib (tail ++ [j]) t := lastChain_snoc hch hj hlast
        have hwfsib : Wf sib = true := wf_nodeAt hwf (nodeAt_snoc_some hsS hsib)
        obtain ⟨hd, hn⟩ := deepDesc_of_lastChain hwfsib hch2 htb hbf
        rw [hd, hn, hqeq]
        rw [show ((s ++ [i]) ++ tail) ++ [j] = (s ++ [i]) ++ (tail ++ [j]) by
          simp]

/-- Claim C1, witness: in the nested example document, the paragraph that
ends the first list item's subtree has the second list item as pre-order
successor, and `selectPrev` from there walks back down to that paragraph. -/
theorem c1_selectPrev_inverse_witness :
    selectPrev egDoc ((BlockPosition.create egDoc 34).getD dfltBP) =
      some ((BlockPosition.create egDoc 27).getD dfltBP) :=
  c1_selectPrev_inverse egDoc egPara [2, 0, 2, 1, 0]
    ((BlockPosition.create egDoc 27).getD dfltBP)
    ((BlockPosition.create egDoc 34).getD dfltBP)
    (by decide) (by decide) (by decide) (by decide) (by decide) (by decide)

/-!
## Maximality of the deepest-last descendant
-/

theorem nodeAt_of_lastChain :
    ∀ {tail : List Nat} {n e : PNode}, IsLastChain n tail e →
      nodeAt n tail = some e
  | [], n, e, hch => by
    have : n = e := hch
    subst this
    exact nodeAt_nil n
  | x :: tail, n, e, hch => by
    obtain ⟨_, c, hc, hch'⟩ := hch
    rw [nodeAt_cons_some hc]
    exact nodeAt_of_lastChain hch'

theorem first_step_block {c e : PNode} {m : List Nat}
    (he : nodeAt c m = some e) (heb : isBlock e = true) (hm : m ≠ []) :
    ∃ y m'' c', m = y :: m'' ∧ (kidsOf c)[y]? = some c' ∧ isBlock c' = true := by
  cases m with
  | nil => exact absurd rfl hm
  | cons y m'' =>
    cases hk : (kidsOf c)[y]? with
    | none => rw [nodeAt_cons_none hk] at he; exact absurd he (by simp)
    | some c' =>
      rw [nodeAt_cons_some hk] at he
      refine ⟨y, m'', c', rfl, hk, ?_⟩
      cases m'' with
      | nil =>
        rw [nodeAt_nil] at he
        cases he
        exact heb
      | cons z m3 =>
        cases hk2 : (kidsOf c')[z]? with
        | none => rw [nodeAt_cons_none hk2] at he; exact absurd he (by simp)
        | some c2 => exact isBlock_of_kids_nonempty hk2

theorem posInNode_le_deepDesc :
    ∀ {m : List Nat} {n : PNode}, Wf n = true → m ≠ [] →
      (∃ e, nodeAt n m = some e ∧ isBlock e = true) →
      posInNode n m ≤ posInNode n (deepDesc n)
  | [], _, _, hm, _ => absurd rfl hm
  | x :: m', n, hwf, _, ⟨e, he, heb⟩ => by
    obtain ⟨y, m'', c', hmeq, hk, hc'b⟩ :=
      first_step_block he heb (by simp)
    cases hmeq
    rw [nodeAt_cons_some hk] at he
    have hwfc := wf_kid hwf (List.getElem?_mem hk)
    have hbf := hasBlockFirstChild_of_kid hwf hk hc'b
    have hccpos : 0 < childCount n := by
      have := lt_length_of_getElem? hk
      simp only [childCount]
      omega
    obtain ⟨l, hl⟩ := @getElem?_of_lt (kidsOf n) (childCount n - 1)
      (by simp only [childCount] at hccpos ⊢; omega)
    obtain ⟨hd, hdn⟩ := deepDesc_step hbf hl
    have hsize : nodeSize c' = 2 + totalSize (kidsOf c') := by
      cases c' with
      | text len => simp [isBlock] at hc'b
      | block ks => simp [nodeSize, kidsOf]
    have hlb : sizesBefore (kidsOf n) (childCount n - 1) ≤
        posInNode n (deepDesc n) := by
      rw [hd]
      cases hdl : decide (deepDesc l = []) with
      | true =>
        have : deepDesc l = [] := of_decide_eq_true hdl
        rw [this, posInNode_single]
      | false =>
        have hne : deepDesc l ≠ [] := of_decide_eq_false hdl
        rw [posInNode_cons hne hl]
        omega
    rcases Nat.lt_or_ge x (childCount n - 1) with hxlt | hxge
    · have hub : posInNode n (x :: m') < sizesBefore (kidsOf n) (x + 1) := by
        rw [sizesBefore_succ hk]
        cases hme : decide (m' = []) with
        | true =>
          have : m' = [] := of_decide_eq_true hme
          subst this
          rw [posInNode_single]
          have := nodeSize_pos hwfc
          omega
        | false =>
          have hne : m' ≠ [] := of_decide_eq_false hme
          rw [posInNode_cons hne hk]
          have hble := posInNode_le_content (boundaryIn_of_nodeAt he hne)
          omega
      have hmono : sizesBefore (kidsOf n) (x + 1) ≤
          sizesBefore (kidsOf n) (childCount n - 1) :=
        sizesBefore_mono _ (by omega)
      omega
    · have hyeq : x = childCount n - 1 := by
        have := childCount_le_of_kid hk
        omega
      subst hyeq
      rw [hl] at hk
      cases hk
      cases hme : decide (m' = []) with
      | true =>
        have : m' = [] := of_decide_eq_true hme
        subst this
        rw [posInNode_single]
        exact hlb
      | false =>
        have hne : m' ≠ [] := of_decide_eq_false hme
        obtain ⟨z, m3, c2, hm3, hk2, hc2b⟩ := first_step_block he heb hne
        have hbfl := hasBlockFirstChild_of_kid hwfc hk2 hc2b
        have hccl : 0 < childCount c' := by
          have := lt_length_of_getElem? hk2
          simp only [childCount]
          omega
        obtain ⟨l2, hl2⟩ := @getElem?_of_lt (kidsOf c')
          (childCount c' - 1) (by simp only [childCount] at hccl ⊢; omega)
        obtain ⟨hdl, _⟩ := deepDesc_step hbfl hl2
        have hdlne : deepDesc c' ≠ [] := by rw [hdl]; simp
        have ih := posInNode_le_deepDesc hwfc hne ⟨e, he, heb⟩
        rw [posInNode_cons hne hl, hd, posInNode_cons hdlne hl]
        omega

theorem validBlockPath_elim {doc : PNode} {m : List Nat}
    (h : validBlockPath doc m = true) :
    m ≠ [] ∧ ∃ e, nodeAt doc m = some e ∧ isBlock e = true := by
  rw [validBlockPath, Bool.and_eq_true] at h
  refine ⟨by simpa using h.1, ?_⟩
  cases he : nodeAt doc m with
  | none =>
    exfalso
    have h2 := h.2
    rw [he] at h2
    exact Bool.false_ne_true h2
  | some e =>
    have h2 := h.2
    rw [he] at h2
    exact ⟨e, rfl, h2⟩

theorem validBlockPath_intro {doc e : PNode} {m : List Nat}
    (hm : m ≠ []) (he : nodeAt doc m = some e) (heb : isBlock e = true) :
    validBlockPath doc m = true := by
  rw [validBlockPath, Bool.and_eq_true]
  refine ⟨by simpa using hm, ?_⟩
  rw [he]
  exact heb

/-- Claim C4: `selectNext` computes the depth-first pre-order successor as
the spec words it (`specPreorderSucc`: first block child, else next
sibling, else the nearest ancestor's next sibling), and it returns absent
exactly when the position holds the last block in document order (no valid
block path has a greater position). -/
theorem c4_selectNext_preorder (doc t : PNode) (p : List Nat)
    (A : BlockPosition)
    (hwf : Wf doc = true) (hp : p ≠ []) (ht : nodeAt doc p = some t)
    (htb : isBlock t = true)
    (hA : BlockPosition.create doc (posInNode doc p) = some A) :
    selectNext doc A =
      (specPreorderSucc doc p).bind
        (fun p' => BlockPosition.create doc (posInNode doc p')) ∧
    (selectNext doc A = none ↔
      ∀ m, validBlockPath doc m = true →
        posInNode doc m ≤ posInNode doc p) := by
  obtain ⟨q, j, rfl⟩ : ∃ q j, p = q ++ [j] :=
    ⟨p.dropLast, p.getLast hp, (List.dropLast_append_getLast hp).symm⟩
  obtain ⟨P, hq, hj⟩ := nodeAt_snoc_inv ht
  rw [create_at_path hwf hq hj] at hA
  cases hA
  have hwfP : Wf P = true := wf_nodeAt hwf hq
  have ha : selectNext doc (bpOfPath doc (q ++ [j]) t) =
      (specPreorderSucc doc (q ++ [j])).bind
        (fun p' => BlockPosition.create doc (posInNode doc p')) := by
    cases hbf : hasBlockFirstChild t with
    | true =>
      obtain ⟨c0, hc0, hc0b⟩ := hasBlockFirstChild_elim hbf
      rw [selectNext_at_firstChild hwf hq hj hc0 hc0b]
      simp only [specPreorderSucc, ht, hbf, if_pos]
      exact (create_at_path hwf ht hc0).symm
    | false =>
      have hspec : specPreorderSucc doc (q ++ [j]) = siblingUp doc (q ++ [j]) := by
        simp only [specPreorderSucc, ht, hbf]
        rfl
      rw [hspec, siblingUp_snoc j hq]
      cases hnext : (kidsOf P)[j + 1]? with
      | some t' =>
        have hlt : j + 1 < childCount P := by
          have := childCount_le_of_kid hnext
          omega
        rw [selectNext_at_sibling hwf hq hj hbf hnext, if_pos hlt]
        exact (create_at_path hwf hq hnext).symm
      | none =>
        have hge : childCount P ≤ j + 1 := by
          have := List.getElem?_eq_none_iff.mp hnext
          simpa [childCount] using this
        rw [selectNext_at_up hwf hq hj hbf hnext, if_neg (by omega)]
  refine ⟨ha, ?_, ?_⟩
  · intro hnone m hm
    obtain ⟨hmne, e, he, heb⟩ := validBlockPath_elim hm
    cases hbf : hasBlockFirstChild t with
    | true =>
      exfalso
      obtain ⟨c0, hc0, hc0b⟩ := hasBlockFirstChild_elim hbf
      rw [selectNext_at_firstChild hwf hq hj hc0 hc0b] at hnone
      exact absurd hnone (by simp)
    | false =>
      cases hnext : (kidsOf P)[j + 1]? with
      | some t' =>
        exfalso
        rw [selectNext_at_sibling hwf hq hj hbf hnext] at hnone
        exact absurd hnone (by simp)
      | none =>
        rw [selectNext_at_up hwf hq hj hbf hnext] at hnone
        cases hs : siblingUp doc q with
        | some p' =>
          exfalso
          rw [hs] at hnone
          obtain ⟨s, i, tail, S, sib, sib', hqeq, hp'eq, hsS, hsib, hsib', hch⟩ :=
            siblingUp_trace q P p' hq hs
          subst hp'eq
          have : BlockPosition.create doc (posInNode doc (s ++ [i + 1])) =
              none := hnone
          rw [create_at_path hwf hsS hsib'] at this
          exact absurd this (by simp)
        | none =>
          have hch := siblingUp_none_chain q P hq hs
          have hlast : j = childCount P - 1 := by
            have h1 := List.getElem?_eq_none_iff.mp hnext
            have h2 := childCount_le_of_kid hj
            simp only [childCount] at h1 h2 ⊢
            omega
          have hch2 : IsLastChain doc (q ++ [j]) t := lastChain_snoc hch hj hlast
          obtain ⟨hd, _⟩ := deepDesc_of_lastChain hwf hch2 htb hbf
          rw [← hd]
          exact posInNode_le_deepDesc hwf hmne ⟨e, he, heb⟩
  · intro hall
    cases hbf : hasBlockFirstChild t with
    | true =>
      exfalso
      obtain ⟨c0, hc0, hc0b⟩ := hasBlockFirstChild_elim hbf
      have hm : validBlockPath doc ((q ++ [j]) ++ [0]) = true :=
        validBlockPath_intro (by simp) (nodeAt_snoc_some ht hc0) hc0b
      have hle := hall _ hm
      rw [posInNode_snoc (q ++ [j]) doc t 0 ht,
        if_neg (by simp : ¬(q ++ [j] : List Nat) = [])] at hle
      simp [sizesBefore_zero] at hle
    | false =>
      cases hnext : (kidsOf P)[j + 1]? with
      | some t' =>
        exfalso
        have ht'b : isBlock t' = true :=
          homog_all_block hwfP (List.getElem?_mem hj) htb t'
            (List.getElem?_mem hnext)
        have hm : validBlockPath doc (q ++ [j + 1]) = true :=
          validBlockPath_intro (by simp) (nodeAt_snoc_some hq hnext) ht'b
        have hle := hall _ hm
        have hpos := posInNode_snoc_succ hq hj
        have hts := nodeSize_pos (wf_nodeAt hwf ht)
        omega
      | none =>
        rw [selectNext_at_up hwf hq hj hbf hnext]
        cases hs : siblingUp doc q with
        | none => rfl
        | some p' =>
          exfalso
          obtain ⟨s, i, tail, S, sib, sib', hqeq, hp'eq, hsS, hsib, hsib', hch⟩ :=
            siblingUp_trace q P p' hq hs
          have hsibb : isBlock sib = true :=
            isBlock_of_lastChain hch (isBlock_of_kids_nonempty hj)
          have hwfS : Wf S = true := wf_nodeAt hwf hsS
          have hsib'b : isBlock sib' = true :=
            homog_all_block hwfS (List.getElem?_mem hsib) hsibb sib'
              (List.getElem?_mem hsib')
          have hm : validBlockPath doc (s ++ [i + 1]) = true :=
            validBlockPath_intro (by simp) (nodeAt_snoc_some hsS hsib') hsib'b
          have hle := hall _ hm
          have hlast : j = childCount P - 1 := by
            have h1 := List.getElem?_eq_none_iff.mp hnext
            have h2 := childCount_le_of_kid hj
            simp only [childCount] at h1 h2 ⊢
            omega
          have hch2 : IsLastChain sib (tail ++ [j]) t := lastChain_snoc hch hj hlast
          have hnsib := nodeAt_of_lastChain hch2
          have hext := posInNode_ext_lt (nodeAt_snoc_some hsS hsib)
            ⟨t, hnsib⟩ (by simp) (by simp)
          have hsucc := posInNode_snoc_succ hsS hsib
          have hqpos : posInNode doc (q ++ [j]) =
              posInNode doc ((s ++ [i]) ++ (tail ++ [j])) := by
            rw [hqeq]
            rw [show ((s ++ [i]) ++ tail) ++ [j] = (s ++ [i]) ++ (tail ++ [j]) by
              simp]
          rw [hqpos] at hle
          omega

/-- Claim C4, witness: at the heading of the example document, `selectNext`
agrees with the spec's pre-order successor (the following paragraph). -/
theorem c4_selectNext_preorder_witness :
    selectNext egDoc ((BlockPosition.create egDoc 0).getD dfltBP) =
      (specPreorderSucc egDoc [0]).bind
        (fun p' => BlockPosition.create egDoc (posInNode egDoc p')) :=
  (c4_selectNext_preorder egDoc (.block [.text 3]) [0]
    ((BlockPosition.create egDoc 0).getD dfltBP)
    (by decide) (by decide) (by decide) (by decide) (by decide)).1
